import Mathlib

/-!
Verification of the kyokan ingredient-ontology scripts.

Shallow embedding of:
  scripts/build-ingredient-ontology.py  (slugify, derive_tokens, derive_modifiers,
    slug_to_equivalence_class, dedup_ordered, normalize_fdc_id, load_s1, load_s2,
    merge_entries, enrich_entry)
  scripts/patch-ontology-top200.py / patch-ontology-next100.py
    (enrich_new_entry, main's patch-application algorithm)

Strings are modelled as `List Char` restricted to ASCII semantics
(Python's `str.lower`, `str.strip`, `re` character classes are embedded
for the ASCII fragment).
-/

/-- Python strings, modelled as lists of characters. -/
abbrev Str := List Char

/-- Coerce a Lean string literal to the model type. -/
def s2l (s : String) : Str := s.data

/-- ASCII fragment of Python's whitespace class (space, tab, LF, CR, VT, FF). -/
def isPySpace (c : Char) : Bool :=
  c.toNat = 32 || c.toNat = 9 || c.toNat = 10 || c.toNat = 13 || c.toNat = 11 || c.toNat = 12

/-- Lowercase ASCII letter test, `[a-z]`. -/
def isLowerAlpha (c : Char) : Bool := 97 ≤ c.toNat && c.toNat ≤ 122

/-- ASCII digit test, `[0-9]`. -/
def isDigitC (c : Char) : Bool := 48 ≤ c.toNat && c.toNat ≤ 57

/-- Uppercase ASCII letter test, `[A-Z]`. -/
def isUpperAlpha (c : Char) : Bool := 65 ≤ c.toNat && c.toNat ≤ 90

/-- `[a-z0-9]`, the characters kept by token cleaning. -/
def isLowerAlnum (c : Char) : Bool := isLowerAlpha c || isDigitC c

/-- ASCII fragment of Python `str.lower` on one character. -/
def pyLower (c : Char) : Char :=
  if isUpperAlpha c then Char.ofNat (c.toNat + 32) else c

/-- Python `s.lower()`. -/
def lowerStr (s : Str) : Str := s.map pyLower

/-- Python `s.strip()` (both-ends whitespace trim). -/
def trimStr (s : Str) : Str :=
  ((s.dropWhile isPySpace).reverse.dropWhile isPySpace).reverse

/-- Hyphen test. -/
def isHyphen (c : Char) : Bool := c = '-'

/-- Python `s.strip("-")`. -/
def stripHyphens (s : Str) : Str :=
  ((s.dropWhile isHyphen).reverse.dropWhile isHyphen).reverse

/-- Characters kept by `re.sub(r"[^a-z0-9\s-]", "", s)`. -/
def slugKeep (c : Char) : Bool := isLowerAlnum c || isPySpace c || isHyphen c

/-- Replace each maximal run of characters satisfying `p` by a single `'-'`;
embeds `re.sub(r"[\s]+", "-", s)` (with `p := isPySpace`) and
`re.sub(r"-+", "-", s)` (with `p := isHyphen`). -/
def collapseRuns (p : Char → Bool) : Str → Str
  | [] => []
  | [c] => if p c then ['-'] else [c]
  | c :: d :: rest =>
    if p c then
      if p d then collapseRuns p (d :: rest)
      else '-' :: collapseRuns p (d :: rest)
    else c :: collapseRuns p (d :: rest)

/-- `slugify` from build-ingredient-ontology.py: lowercase, strip, drop
characters outside `[a-z0-9\s-]`, collapse whitespace runs to `-`,
collapse `-` runs, strip leading/trailing `-`. -/
def slugify (text : Str) : Str :=
  stripHyphens (collapseRuns isHyphen (collapseRuns isPySpace
    ((trimStr (lowerStr text)).filter slugKeep)))

/-- Lexicographic (code-point) strict order on strings, Python `<`. -/
def strLt : Str → Str → Bool
  | [], [] => false
  | [], _ :: _ => true
  | _ :: _, [] => false
  | a :: as, b :: bs =>
    if a.toNat < b.toNat then true
    else if b.toNat < a.toNat then false
    else strLt as bs

/-- Lexicographic non-strict order on strings, Python `<=`. -/
def strLe (a b : Str) : Bool := !(strLt b a)

/-- Insert a string into an ascending duplicate-free list, skipping it when
already present; the building block for Python's `sorted(set(...))`. -/
def setInsert (x : Str) : List Str → List Str
  | [] => [x]
  | y :: ys =>
    if strLt x y then x :: y :: ys
    else if strLt y x then y :: setInsert x ys
    else y :: ys

/-- Python `sorted(set(l))` for a list of strings. -/
def sortedSet (l : List Str) : List Str :=
  l.foldl (fun acc x => setInsert x acc) []

/-- Python `str.split()`: split on whitespace runs, dropping empty pieces.
`acc` accumulates (reversed) the current word. -/
def pyWordsAux : Str → Str → List Str
  | [], acc => if acc.isEmpty then [] else [acc.reverse]
  | c :: rest, acc =>
    if isPySpace c then
      if acc.isEmpty then pyWordsAux rest []
      else acc.reverse :: pyWordsAux rest []
    else pyWordsAux rest (c :: acc)

/-- Python `s.split()`. -/
def pyWords (s : Str) : List Str := pyWordsAux s []

/-- `re.sub(r"[^a-z0-9]", "", t)`, the token-cleaning step. -/
def cleanToken (t : Str) : Str := t.filter isLowerAlnum

/-- The cleaned, length-filtered tokens contributed by one surface form:
`for t in form.lower().split(): cleaned = re.sub(...); if cleaned and len(cleaned) >= 2`. -/
def tokensOfForm (form : Str) : List Str :=
  ((pyWords (lowerStr form)).map cleanToken).filter (fun c => 2 ≤ c.length)

/-- `derive_tokens` from build-ingredient-ontology.py: the ascending sorted
set of cleaned tokens drawn from all surface forms. -/
def derive_tokens (surface_forms : List Str) : List Str :=
  sortedSet ((surface_forms.map tokensOfForm).flatten)

/-- `COLOR_WORDS` of build-ingredient-ontology.py. -/
def COLOR_WORDS : List Str :=
  [s2l "red", s2l "green", s2l "yellow", s2l "orange", s2l "purple", s2l "white",
   s2l "black", s2l "brown", s2l "golden"]

/-- `FORM_WORDS` of build-ingredient-ontology.py. -/
def FORM_WORDS : List Str :=
  [s2l "raw", s2l "cooked", s2l "dried", s2l "ground", s2l "fresh", s2l "frozen",
   s2l "canned", s2l "whole", s2l "powdered"]

/-- `PREP_WORDS` of build-ingredient-ontology.py (20 words). -/
def PREP_WORDS : List Str :=
  [s2l "chopped", s2l "diced", s2l "minced", s2l "sliced", s2l "shredded", s2l "peeled",
   s2l "seeded", s2l "grated", s2l "crushed", s2l "roasted", s2l "toasted", s2l "smoked",
   s2l "blanched", s2l "sauteed", s2l "melted", s2l "softened", s2l "julienned",
   s2l "cubed", s2l "mashed", s2l "pureed"]

/-- `SIZE_WORDS` of build-ingredient-ontology.py. -/
def SIZE_WORDS : List Str :=
  [s2l "small", s2l "medium", s2l "large", s2l "thin", s2l "thick", s2l "baby", s2l "mini"]

/-- The modifier record produced by `derive_modifiers`. -/
structure Modifiers where
  color : List Str
  form : List Str
  prep : List Str
  size : List Str
  origin : List Str
  deriving DecidableEq, Repr

/-- `derive_modifiers` from build-ingredient-ontology.py. -/
def derive_modifiers (tokens : List Str) : Modifiers :=
  { color := tokens.filter (fun t => decide (t ∈ COLOR_WORDS))
    form := tokens.filter (fun t => decide (t ∈ FORM_WORDS))
    prep := tokens.filter (fun t => decide (t ∈ PREP_WORDS))
    size := tokens.filter (fun t => decide (t ∈ SIZE_WORDS))
    origin := [] }

/-- The fixed suffix list of `slug_to_equivalence_class`. -/
def EQ_SUFFIXES : List Str :=
  [s2l "-raw", s2l "-cooked", s2l "-frozen", s2l "-canned", s2l "-peeled", s2l "-seeded",
   s2l "-boneless", s2l "-skinless", s2l "-dried", s2l "-ground", s2l "-fresh",
   s2l "-smoked", s2l "-roasted", s2l "-toasted", s2l "-whole", s2l "-sliced",
   s2l "-diced", s2l "-minced", s2l "-chopped", s2l "-shredded", s2l "-crushed"]

/-- One iteration of the suffix loop: `if base.endswith(suf): base = base[:-len(suf)]`. -/
def stripStep (base : Str) (suf : Str) : Str :=
  if suf.isSuffixOf base then base.take (base.length - suf.length) else base

/-- `slug_to_equivalence_class` from build-ingredient-ontology.py: a single
pass over the suffix list, stripping on every match (the loop has no break). -/
def slug_to_equivalence_class (slug : Str) : Str :=
  EQ_SUFFIXES.foldl stripStep slug

/-- Worker for `dedup_ordered`; `seen` is the set of lowered+trimmed keys. -/
def dedupAux (seen : List Str) : List Str → List Str
  | [] => []
  | item :: rest =>
    if (trimStr (lowerStr item)).isEmpty then dedupAux seen rest
    else if decide (trimStr (lowerStr item) ∈ seen) then dedupAux seen rest
    else trimStr item :: dedupAux (trimStr (lowerStr item) :: seen) rest

/-- `dedup_ordered` from build-ingredient-ontology.py: keep the first
occurrence of each case-insensitively-distinct, non-empty (after trimming)
string, storing it trimmed. -/
def dedup_ordered (items : List Str) : List Str := dedupAux [] items

/-- The JSON values `normalize_fdc_id` may receive for `fdc_id`. -/
inductive FdcVal where
  | none
  | int (n : Int)
  | str (s : Str)
  deriving DecidableEq, Repr

/-- Python `int(s)` on a trimmed string: optional sign then one or more digits. -/
def pyParseIntDigits (l : Str) : Option Int :=
  if l.isEmpty then Option.none
  else if l.all isDigitC then
    Option.some (Int.ofNat (l.foldl (fun acc c => acc * 10 + (c.toNat - 48)) 0))
  else Option.none

/-- Python `int(s)` (ASCII fragment): strip whitespace, optional `+`/`-` sign,
digits; everything else raises `ValueError`, modelled as `none`. -/
def pyParseInt (s : Str) : Option Int :=
  match trimStr s with
  | '-' :: rest => (pyParseIntDigits rest).map (fun n => -n)
  | '+' :: rest => pyParseIntDigits rest
  | l => pyParseIntDigits l

/-- `normalize_fdc_id` from build-ingredient-ontology.py. -/
def normalize_fdc_id : FdcVal → Option Int
  | FdcVal.none => Option.none
  | FdcVal.int n => if 0 < n then Option.some n else Option.none
  | FdcVal.str s =>
    match pyParseInt s with
    | Option.some n => if 0 < n then Option.some n else Option.none
    | Option.none => Option.none

/-- A record of `synonyms-1.json`. -/
structure S1Rec where
  normalized_name : Str
  canonical_name : Option Str
  synonyms : List Str
  fdc_id : FdcVal
  deriving DecidableEq, Repr

/-- A record of `synonyms-2.json`. -/
structure S2Rec where
  slug : Str
  display_name : Str
  synonym_array : List Str
  fdc_id : FdcVal
  deriving DecidableEq, Repr

/-- The normalized intermediate record built by `load_s1`/`load_s2`. -/
structure NRec where
  slug : Str
  displayName : Str
  surfaceForms : List Str
  fdcId : Option Int
  deriving DecidableEq, Repr

/-- Python dict assignment `d[k] = v`: replace in place when the key exists,
otherwise append. -/
def dictInsert (m : List (Str × NRec)) (k : Str) (v : NRec) : List (Str × NRec) :=
  if m.any (fun p => decide (p.1 = k)) then
    m.map (fun p => if p.1 = k then (k, v) else p)
  else m ++ [(k, v)]

/-- Normalization of one `synonyms-1.json` record (body of the `load_s1` loop). -/
def normS1 (item : S1Rec) : NRec :=
  let name := item.normalized_name
  let display := item.canonical_name.getD name
  { slug := slugify name
    displayName := display
    surfaceForms := dedup_ordered ([display, name] ++ item.synonyms)
    fdcId := normalize_fdc_id item.fdc_id }

/-- `load_s1` from build-ingredient-ontology.py (its pure part: the slug-keyed
dict of normalized records). -/
def load_s1 (raw : List S1Rec) : List (Str × NRec) :=
  raw.foldl (fun m item => dictInsert m (normS1 item).slug (normS1 item)) []

/-- Normalization of one `synonyms-2.json` record (body of the `load_s2` loop). -/
def normS2 (item : S2Rec) : NRec :=
  { slug := item.slug
    displayName := item.display_name
    surfaceForms := dedup_ordered ([item.display_name] ++ item.synonym_array)
    fdcId := normalize_fdc_id item.fdc_id }

/-- `load_s2` from build-ingredient-ontology.py (pure part). -/
def load_s2 (raw : List S2Rec) : List (Str × NRec) :=
  raw.foldl (fun m item => dictInsert m item.slug (normS2 item)) []

/-- Dict lookup `m.get(k)`. -/
def lookupN (m : List (Str × NRec)) (k : Str) : Option NRec :=
  (m.find? (fun p => decide (p.1 = k))).map Prod.snd

/-- Python truthiness-based `x or y` on optional ids (`e2["fdcId"] or e1["fdcId"]`):
`None` and `0` are falsy. -/
def pyOr (a b : Option Int) : Option Int :=
  match a with
  | Option.none => b
  | Option.some n => if n = 0 then b else Option.some n

/-- The per-slug body of `merge_entries`. -/
def mergeOne (s1 s2 : List (Str × NRec)) (slug : Str) : NRec :=
  match lookupN s1 slug, lookupN s2 slug with
  | Option.some e1, Option.some e2 =>
    { slug := slug
      displayName := e2.displayName
      surfaceForms := dedup_ordered (e2.surfaceForms ++ e1.surfaceForms)
      fdcId := pyOr e2.fdcId e1.fdcId }
  | Option.none, Option.some e2 =>
    { slug := slug, displayName := e2.displayName
      surfaceForms := e2.surfaceForms, fdcId := e2.fdcId }
  | Option.some e1, Option.none =>
    { slug := slug, displayName := e1.displayName
      surfaceForms := e1.surfaceForms, fdcId := e1.fdcId }
  | Option.none, Option.none =>
    -- unreachable: `merge_entries` only evaluates slugs drawn from the two key sets
    { slug := slug, displayName := [], surfaceForms := [], fdcId := Option.none }

/-- `merge_entries` from build-ingredient-ontology.py: iterate
`sorted(set(keys1 + keys2))` and merge per slug. -/
def merge_entries (s1 s2 : List (Str × NRec)) : List NRec :=
  (sortedSet (s1.map Prod.fst ++ s2.map Prod.fst)).map (mergeOne s1 s2)

/-- The `fdc` sub-record of an ontology entry. -/
structure Fdc where
  fdcId : Option Int
  dataType : Option Str
  description : Option Str
  deriving DecidableEq, Repr

/-- The `taxonomy` stub sub-record. -/
structure Taxonomy where
  group : Option Str
  family : Option Str
  genus : Option Str
  species : Option Str
  deriving DecidableEq, Repr

/-- A fully-enriched ontology entry. -/
structure Entry where
  slug : Str
  displayName : Str
  surfaceForms : List Str
  tokens : List Str
  modifiers : Modifiers
  aliases : List (Str × Str)
  fdc : Fdc
  equivalenceClass : Str
  taxonomy : Taxonomy
  substitutions : List Str
  deriving DecidableEq, Repr

/-- `enrich_entry` from build-ingredient-ontology.py. -/
def enrich_entry (raw : NRec) : Entry :=
  { slug := raw.slug
    displayName := raw.displayName
    surfaceForms := raw.surfaceForms
    tokens := derive_tokens raw.surfaceForms
    modifiers := derive_modifiers (derive_tokens raw.surfaceForms)
    aliases := []
    fdc := { fdcId := raw.fdcId, dataType := Option.none, description := Option.none }
    equivalenceClass := slug_to_equivalence_class raw.slug
    taxonomy := { group := Option.none, family := Option.none,
                  genus := Option.none, species := Option.none }
    substitutions := [] }

/-- `PREP_WORDS` as re-declared inside `enrich_new_entry` of both patch
scripts (14 words; it omits blanched, sauteed, julienned, cubed, mashed,
pureed relative to the build script's list). -/
def PATCH_PREP_WORDS : List Str :=
  [s2l "chopped", s2l "diced", s2l "minced", s2l "sliced", s2l "shredded", s2l "peeled",
   s2l "seeded", s2l "grated", s2l "crushed", s2l "roasted", s2l "toasted", s2l "smoked",
   s2l "melted", s2l "softened"]

/-- A new-entry candidate of a patch script (`NEW_ENTRIES` element);
`equivalenceClass := none` models a dict without that key. -/
structure NewEntry where
  slug : Str
  displayName : Str
  surfaceForms : List Str
  fdc : Fdc
  equivalenceClass : Option Str
  deriving DecidableEq, Repr

/-- `enrich_new_entry` from patch-ontology-top200.py / patch-ontology-next100.py.
Token derivation is character-for-character the build script's
(`set` of cleaned length-≥2 tokens, then `sorted`); the modifier lexicons are
re-declared locally, with the smaller `PATCH_PREP_WORDS` prep list. -/
def enrich_new_entry (raw : NewEntry) : Entry :=
  { slug := raw.slug
    displayName := raw.displayName
    surfaceForms := raw.surfaceForms
    tokens := derive_tokens raw.surfaceForms
    modifiers :=
      { color := (derive_tokens raw.surfaceForms).filter (fun t => decide (t ∈ COLOR_WORDS))
        form := (derive_tokens raw.surfaceForms).filter (fun t => decide (t ∈ FORM_WORDS))
        prep := (derive_tokens raw.surfaceForms).filter (fun t => decide (t ∈ PATCH_PREP_WORDS))
        size := (derive_tokens raw.surfaceForms).filter (fun t => decide (t ∈ SIZE_WORDS))
        origin := [] }
    aliases := []
    fdc := raw.fdc
    equivalenceClass := raw.equivalenceClass.getD raw.slug
    taxonomy := { group := Option.none, family := Option.none,
                  genus := Option.none, species := Option.none }
    substitutions := [] }

/-- A patch specification: the `SURFACE_FORM_PATCHES` mapping plus the
`NEW_ENTRIES` list of a patch script. -/
structure PatchSpec where
  surfacePatches : List (Str × List Str)
  newEntries : List NewEntry
  deriving DecidableEq, Repr

/-- Case-insensitive membership of `form` in `sfs`
(`form.lower() in {sf.lower() for sf in sfs}`). -/
def lowerMem (sfs : List Str) (form : Str) : Bool :=
  sfs.any (fun sf => decide (lowerStr sf = lowerStr form))

/-- Append `form` unless a case-insensitive duplicate is already present. -/
def addForm (sfs : List Str) (form : Str) : List Str :=
  if lowerMem sfs form then sfs else sfs ++ [form]

/-- Fold `addForm` over a list of candidate forms (the patch scripts keep the
`existing` lowercase set in sync with each append, which is what recomputing
`lowerMem` against the current list models). -/
def addForms (sfs : List Str) (forms : List Str) : List Str :=
  forms.foldl addForm sfs

/-- Does the ontology contain an entry with this slug (`slug in slug_index`)? -/
def hasSlug (O : List Entry) (s : Str) : Bool :=
  O.any (fun e => decide (e.slug = s))

/-- Mutate the entry with slug `s` by appending the given surface forms. -/
def patchForms (O : List Entry) (s : Str) (forms : List Str) : List Entry :=
  O.map (fun e => if e.slug = s then { e with surfaceForms := addForms e.surfaceForms forms } else e)

/-- Step 1 body, with the warning log: process one `(slug, new_forms)` pair of
`SURFACE_FORM_PATCHES`; unknown slugs emit a warning and are skipped. -/
def step1PairLog (ac : List Entry × List Str) (p : Str × List Str) : List Entry × List Str :=
  if hasSlug ac.1 p.1 then (patchForms ac.1 p.1 p.2, ac.2)
  else (ac.1, ac.2 ++ [p.1])

/-- Step 1 of the patch scripts' `main`, returning the patched ontology and
the list of warned-about slugs. -/
def step1Log (O : List Entry) (ps : List (Str × List Str)) : List Entry × List Str :=
  ps.foldl step1PairLog (O, [])

/-- Step 1, ontology part only. -/
def step1 (O : List Entry) (ps : List (Str × List Str)) : List Entry :=
  (step1Log O ps).1

/-- Step 2 body: process one `NEW_ENTRIES` candidate — insert it enriched when
its slug is absent, otherwise merge its surface forms into the existing entry. -/
def step2Cand (O : List Entry) (c : NewEntry) : List Entry :=
  if hasSlug O c.slug then patchForms O c.slug c.surfaceForms
  else O ++ [enrich_new_entry c]

/-- Step 2 of the patch scripts' `main`. -/
def step2 (O : List Entry) (cs : List NewEntry) : List Entry :=
  cs.foldl step2Cand O

/-- Stable insertion of an entry into a slug-sorted list. -/
def insertEntry (e : Entry) : List Entry → List Entry
  | [] => [e]
  | y :: ys => if strLe e.slug y.slug then e :: y :: ys else y :: insertEntry e ys

/-- `ontology.sort(key=lambda e: e["slug"])` — a stable sort by slug. -/
def sortEntries (l : List Entry) : List Entry :=
  l.foldr insertEntry []

/-- The whole patch application (`main` of the patch scripts, pure part):
surface-form patches, then new entries, then sort by slug. -/
def applyPatch (O : List Entry) (P : PatchSpec) : List Entry :=
  sortEntries (step2 (step1 O P.surfacePatches) P.newEntries)

/-- `find` the entry of a merged list carrying the given slug. -/
def findSlug (l : List NRec) (s : Str) : Option NRec :=
  l.find? (fun e => decide (e.slug = s))

/-- The frame relation between an entry and its patched descendant: every
field except `surfaceForms` is unchanged, and `surfaceForms` is only appended to. -/
def framePreserved (e e' : Entry) : Prop :=
  e'.slug = e.slug ∧ e'.displayName = e.displayName ∧ e'.tokens = e.tokens ∧
  e'.modifiers = e.modifiers ∧ e'.aliases = e.aliases ∧ e'.fdc = e.fdc ∧
  e'.equivalenceClass = e.equivalenceClass ∧ e'.taxonomy = e.taxonomy ∧
  e'.substitutions = e.substitutions ∧ ∃ t, e'.surfaceForms = e.surfaceForms ++ t

/-- Case-insensitive uniqueness of a surface-form list. -/
def ciNodup (l : List Str) : Prop :=
  List.Pairwise (fun a b => lowerStr a ≠ lowerStr b) l

/-- Concrete Source A record for the spec's Scenario 1. -/
def romaRec : S1Rec :=
  { normalized_name := s2l "Roma Tomato"
    canonical_name := Option.some (s2l "Tomato")
    synonyms := [s2l "tomatoes"]
    fdc_id := FdcVal.none }

/-- The knowledge base built from Scenario 1's single Source A record and an
empty Source B. -/
def builtC4 : List Entry :=
  (merge_entries (load_s1 [romaRec]) (load_s2 [])).map enrich_entry

/-- A new-entry candidate whose surface form contains the word `mashed`. -/
def c5cand : NewEntry :=
  { slug := s2l "potato", displayName := s2l "Potato"
    surfaceForms := [s2l "mashed potato"]
    fdc := { fdcId := Option.none, dataType := Option.none, description := Option.none }
    equivalenceClass := Option.none }

/-- The same candidate reshaped as a build-script merged record. -/
def c5rec : NRec :=
  { slug := s2l "potato", displayName := s2l "Potato"
    surfaceForms := [s2l "mashed potato"], fdcId := Option.none }

/-- New-entry candidate used by the patch-idempotency counterexample. -/
def flourCand : NewEntry :=
  { slug := s2l "flour", displayName := s2l "Flour"
    surfaceForms := [s2l "flour"]
    fdc := { fdcId := Option.some 789890, dataType := Option.some (s2l "foundation"),
             description := Option.none }
    equivalenceClass := Option.some (s2l "flour") }

/-- A patch whose surface-form pair names a slug that only the new-entry step
introduces: skipped on the first application, applied on the second. -/
def c1patch : PatchSpec :=
  { surfacePatches := [(s2l "flour", [s2l "flour power"])]
    newEntries := [flourCand] }

/-- A one-entry enriched knowledge base used by several witnesses. -/
def saltEntry : Entry :=
  enrich_entry { slug := s2l "salt", displayName := s2l "Salt"
                 surfaceForms := [s2l "Salt"], fdcId := Option.some 173468 }

/-- A patch whose surface-form pairs all name slugs existing in `[saltEntry]`. -/
def saltPatch : PatchSpec :=
  { surfacePatches := [(s2l "salt", [s2l "sea salt", s2l "SALT"])]
    newEntries := [flourCand] }

/-- Characters that can occur in a slugify output. -/
def isSlugChar (c : Char) : Bool := isLowerAlnum c || isHyphen c

/-- Both-ends strip with predicate `p`; `trimStr` and `stripHyphens` are its
instances. -/
def stripBoth (p : Char → Bool) (l : Str) : Str :=
  ((l.dropWhile p).reverse.dropWhile p).reverse

/-- Step 1 body without the warning log (the ontology component of
`step1PairLog`). -/
def step1Pair (O : List Entry) (p : Str × List Str) : List Entry :=
  if hasSlug O p.1 then patchForms O p.1 p.2 else O

/-- Normalized Source A record for the merge-priority witness. -/
def c2e1 : NRec :=
  { slug := s2l "tomato", displayName := s2l "Tomato A"
    surfaceForms := [s2l "roma"], fdcId := Option.some 7 }

/-- Normalized Source B record for the merge-priority witness. -/
def c2e2 : NRec :=
  { slug := s2l "tomato", displayName := s2l "Tomato B"
    surfaceForms := [s2l "Tomato"], fdcId := Option.none }

-- ═════════════════════════════ Theorems ═════════════════════════════

theorem foldl_stripStep_no_match (L : List Str) (b : Str)
    (h : ∀ s ∈ L, s.isSuffixOf b = false) : L.foldl stripStep b = b := by
  induction L with
  | nil => rfl
  | cons x xs ih =>
    have hx := h x (List.mem_cons_self x xs)
    simp only [List.foldl_cons, stripStep, hx, Bool.false_eq_true, if_false]
    exact ih (fun s hs => h s (List.mem_cons_of_mem x hs))

/-- C3 counterexample: the claim says the derivation never strips a second
suffix, so `x-dried-raw` should map to `x-dried`; the code strips `-raw`
and then also `-dried`, yielding `x`. -/
theorem c3_counterexample :
    slug_to_equivalence_class (s2l "x-dried-raw") = s2l "x" ∧
    s2l "x" ≠ s2l "x-dried" := by decide

/-- C3 (amended): the derivation makes one pass over the fixed suffix list;
if no listed suffix matches, the slug is returned unmodified, and the first
matching suffix in list order is stripped, after which the scan continues
over the remaining (later) suffixes only — possibly stripping again. -/
theorem slug_to_equivalence_class_first_match (slug : Str) :
    ((∀ suf ∈ EQ_SUFFIXES, suf.isSuffixOf slug = false) →
      slug_to_equivalence_class slug = slug) ∧
    (∀ (L1 : List Str) (suf : Str) (L2 : List Str), EQ_SUFFIXES = L1 ++ suf :: L2 →
      (∀ s ∈ L1, s.isSuffixOf slug = false) → suf.isSuffixOf slug = true →
      slug_to_equivalence_class slug =
        L2.foldl stripStep (slug.take (slug.length - suf.length))) := by
  constructor
  · intro h
    exact foldl_stripStep_no_match EQ_SUFFIXES slug h
  · intro L1 suf L2 hL hL1 hsuf
    unfold slug_to_equivalence_class
    rw [hL, List.foldl_append, foldl_stripStep_no_match L1 slug hL1]
    simp only [List.foldl_cons, stripStep, hsuf, if_true]

/-- Witness for the amended C3 theorem at the slug `tomato-raw`. -/
theorem slug_to_equivalence_class_first_match_witness :
    slug_to_equivalence_class (s2l "tomato-raw") = s2l "tomato" :=
  ((slug_to_equivalence_class_first_match (s2l "tomato-raw")).2
    [] (s2l "-raw") (EQ_SUFFIXES.drop 1) (by decide) (by decide) (by decide)).trans
    (by decide)

/-- C4 counterexample: with Scenario 1's input the built knowledge base has no
entry with slug `tomato`; its single entry's slug is `roma-tomato`
(`slugify("Roma Tomato")`). -/
theorem c4_counterexample :
    hasSlug builtC4 (s2l "tomato") = false ∧
    builtC4.map Entry.slug = [s2l "roma-tomato"] := by decide

/-- C4 (amended): the Scenario 1 entry has slug `roma-tomato`, displayName
`Tomato`, surfaceForms `["Tomato","Roma Tomato","tomatoes"]`, and tokens
containing `tomato`, `tomatoes` and `roma`. -/
theorem builtC4_spec :
    builtC4.map Entry.slug = [s2l "roma-tomato"] ∧
    builtC4.map Entry.displayName = [s2l "Tomato"] ∧
    builtC4.map Entry.surfaceForms = [[s2l "Tomato", s2l "Roma Tomato", s2l "tomatoes"]] ∧
    builtC4.all (fun e => e.tokens.contains (s2l "tomato") &&
      e.tokens.contains (s2l "tomatoes") && e.tokens.contains (s2l "roma")) = true := by
  decide

/-- C5 counterexample: on the candidate `["mashed potato"]` the patch scripts'
enricher and the build script's enricher disagree on modifiers — the patch
scripts' prep lexicon lacks `mashed`. -/
theorem c5_counterexample :
    (enrich_new_entry c5cand).modifiers ≠ (enrich_entry c5rec).modifiers ∧
    (enrich_new_entry c5cand).modifiers.prep = [] ∧
    (enrich_entry c5rec).modifiers.prep = [s2l "mashed"] := by decide

theorem patch_prep_subset : ∀ t ∈ PATCH_PREP_WORDS, t ∈ PREP_WORDS := by decide

/-- C5 (amended): on identical slug/displayName/surfaceForms the two
enrichers produce identical tokens, stub fields and color/form/size/origin
modifiers; the patch enricher's prep list is the build enricher's prep list
restricted to the patch scripts' smaller lexicon (which omits blanched,
sauteed, julienned, cubed, mashed, pureed). -/
theorem enrich_new_entry_vs_enrich_entry (c : NewEntry) (r : NRec)
    (hs : c.slug = r.slug) (hd : c.displayName = r.displayName)
    (hf : c.surfaceForms = r.surfaceForms) :
    (enrich_new_entry c).tokens = (enrich_entry r).tokens ∧
    (enrich_new_entry c).modifiers.color = (enrich_entry r).modifiers.color ∧
    (enrich_new_entry c).modifiers.form = (enrich_entry r).modifiers.form ∧
    (enrich_new_entry c).modifiers.size = (enrich_entry r).modifiers.size ∧
    (enrich_new_entry c).modifiers.origin = (enrich_entry r).modifiers.origin ∧
    (enrich_new_entry c).modifiers.prep =
      ((enrich_entry r).modifiers.prep).filter (fun t => decide (t ∈ PATCH_PREP_WORDS)) ∧
    (enrich_new_entry c).aliases = (enrich_entry r).aliases ∧
    (enrich_new_entry c).taxonomy = (enrich_entry r).taxonomy ∧
    (enrich_new_entry c).substitutions = (enrich_entry r).substitutions := by
  refine ⟨by simp [enrich_new_entry, enrich_entry, hf], by simp [enrich_new_entry, enrich_entry, derive_modifiers, hf], by simp [enrich_new_entry, enrich_entry, derive_modifiers, hf], by simp [enrich_new_entry, enrich_entry, derive_modifiers, hf], by simp [enrich_new_entry, enrich_entry, derive_modifiers, hf], ?_, by simp [enrich_new_entry, enrich_entry], by simp [enrich_new_entry, enrich_entry], by simp [enrich_new_entry, enrich_entry]⟩
  show (derive_tokens c.surfaceForms).filter (fun t => decide (t ∈ PATCH_PREP_WORDS)) =
    ((derive_tokens r.surfaceForms).filter (fun t => decide (t ∈ PREP_WORDS))).filter
      (fun t => decide (t ∈ PATCH_PREP_WORDS))
  rw [hf, List.filter_filter]
  apply List.filter_congr
  intro t _
  by_cases h : t ∈ PATCH_PREP_WORDS
  · simp [h, patch_prep_subset t h]
  · simp [h]

/-- Witness for the amended C5 theorem on the `mashed potato` candidate. -/
theorem enrich_new_entry_vs_enrich_entry_witness :
    (enrich_new_entry c5cand).tokens = (enrich_entry c5rec).tokens ∧
    (enrich_new_entry c5cand).modifiers.prep =
      ((enrich_entry c5rec).modifiers.prep).filter (fun t => decide (t ∈ PATCH_PREP_WORDS)) :=
  ⟨(enrich_new_entry_vs_enrich_entry c5cand c5rec (by decide) (by decide) (by decide)).1,
   (enrich_new_entry_vs_enrich_entry c5cand c5rec (by decide) (by decide) (by decide)).2.2.2.2.2.1⟩

-- ── Character-class facts ──

theorem isHyphen_eq (c : Char) (h : isHyphen c = true) : c = '-' := by
  simpa [isHyphen] using h

theorem slugChar_toNat {c : Char} (h : isSlugChar c = true) :
    (97 ≤ c.toNat ∧ c.toNat ≤ 122) ∨ (48 ≤ c.toNat ∧ c.toNat ≤ 57) ∨ c.toNat = 45 := by
  simp only [isSlugChar, isLowerAlnum, isLowerAlpha, isDigitC, isHyphen, Bool.or_eq_true,
    Bool.and_eq_true, decide_eq_true_eq] at h
  rcases h with (h | h) | h
  · exact Or.inl h
  · exact Or.inr (Or.inl h)
  · subst h; exact Or.inr (Or.inr rfl)

theorem slugChar_not_upper {c : Char} (h : isSlugChar c = true) : isUpperAlpha c = false := by
  have := slugChar_toNat h
  simp only [isUpperAlpha, Bool.and_eq_false_iff, decide_eq_false_iff_not]
  omega

theorem slugChar_not_space {c : Char} (h : isSlugChar c = true) : isPySpace c = false := by
  have := slugChar_toNat h
  simp only [isPySpace, Bool.or_eq_false_iff, decide_eq_false_iff_not]
  omega

theorem slugChar_keep {c : Char} (h : isSlugChar c = true) : slugKeep c = true := by
  simp only [isSlugChar, Bool.or_eq_true] at h
  simp only [slugKeep, Bool.or_eq_true]
  rcases h with h | h
  · exact Or.inl (Or.inl h)
  · exact Or.inr h

theorem pyLower_slugChar {c : Char} (h : isSlugChar c = true) : pyLower c = c := by
  simp [pyLower, slugChar_not_upper h]

-- ── collapseRuns lemmas ──

theorem mem_collapseRuns {p : Char → Bool} {c : Char} :
    ∀ {l : Str}, c ∈ collapseRuns p l → c = '-' ∨ (c ∈ l ∧ p c = false)
  | [], h => by simp [collapseRuns] at h
  | [a], h => by
    by_cases hp : p a = true
    · simp [collapseRuns, hp] at h; exact Or.inl h
    · simp only [Bool.not_eq_true] at hp
      simp [collapseRuns, hp] at h
      exact Or.inr ⟨by simp [h], h ▸ hp⟩
  | a :: d :: rest, h => by
    by_cases hpa : p a = true
    · by_cases hpd : p d = true
      · simp only [collapseRuns, hpa, hpd, if_true] at h
        rcases mem_collapseRuns h with h' | ⟨hm, hf⟩
        · exact Or.inl h'
        · exact Or.inr ⟨List.mem_cons_of_mem a hm, hf⟩
      · simp only [Bool.not_eq_true] at hpd
        simp only [collapseRuns, hpa, hpd, if_true, Bool.false_eq_true, if_false] at h
        rcases List.mem_cons.mp h with h' | h'
        · exact Or.inl h'
        · rcases mem_collapseRuns h' with h'' | ⟨hm, hf⟩
          · exact Or.inl h''
          · exact Or.inr ⟨List.mem_cons_of_mem a hm, hf⟩
    · simp only [Bool.not_eq_true] at hpa
      simp only [collapseRuns, hpa, Bool.false_eq_true, if_false] at h
      rcases List.mem_cons.mp h with h' | h'
      · exact Or.inr ⟨by simp [h'], h' ▸ hpa⟩
      · rcases mem_collapseRuns h' with h'' | ⟨hm, hf⟩
        · exact Or.inl h''
        · exact Or.inr ⟨List.mem_cons_of_mem a hm, hf⟩

theorem collapseRuns_eq_self {p : Char → Bool} :
    ∀ {l : Str}, (∀ c ∈ l, p c = false) → collapseRuns p l = l
  | [], _ => rfl
  | [a], h => by simp [collapseRuns, h a (List.mem_singleton_self a)]
  | a :: d :: rest, h => by
    have ha := h a (List.mem_cons_self a _)
    simp only [collapseRuns, ha, Bool.false_eq_true, if_false]
    congr 1
    exact collapseRuns_eq_self (fun c hc => h c (List.mem_cons_of_mem a hc))

theorem collapseRuns_head {p : Char → Bool} {d : Char} (rest : Str) (h : p d = false) :
    ∃ t, collapseRuns p (d :: rest) = d :: t := by
  cases rest with
  | nil => exact ⟨[], by simp [collapseRuns, h]⟩
  | cons e rest' => exact ⟨collapseRuns p (e :: rest'), by simp [collapseRuns, h]⟩

theorem chain'_collapseRuns {p : Char → Bool} :
    ∀ (l : Str), (collapseRuns p l).Chain' (fun a b => ¬(p a = true ∧ p b = true))
  | [] => by simp [collapseRuns]
  | [a] => by by_cases hp : p a = true <;> simp [collapseRuns, hp]
  | a :: d :: rest => by
    by_cases hpa : p a = true
    · by_cases hpd : p d = true
      · simpa only [collapseRuns, hpa, hpd, if_true] using chain'_collapseRuns (d :: rest)
      · simp only [Bool.not_eq_true] at hpd
        simp only [collapseRuns, hpa, hpd, if_true, Bool.false_eq_true, if_false]
        rw [List.chain'_cons']
        refine ⟨?_, chain'_collapseRuns (d :: rest)⟩
        intro y hy
        obtain ⟨t, ht⟩ := collapseRuns_head rest hpd
        rw [ht] at hy
        simp only [List.head?_cons, Option.mem_def, Option.some.injEq] at hy
        subst hy
        intro hc
        rw [hpd] at hc
        exact absurd hc.2 (by simp)
    · simp only [Bool.not_eq_true] at hpa
      simp only [collapseRuns, hpa, Bool.false_eq_true, if_false]
      rw [List.chain'_cons']
      refine ⟨?_, chain'_collapseRuns (d :: rest)⟩
      intro y _ hc
      rw [hpa] at hc
      exact absurd hc.1 (by simp)

theorem collapseRuns_eq_self_of_chain :
    ∀ {l : Str}, l.Chain' (fun a b => ¬(isHyphen a = true ∧ isHyphen b = true)) →
      collapseRuns isHyphen l = l
  | [], _ => rfl
  | [a], _ => by
    by_cases hp : isHyphen a = true
    · have := isHyphen_eq a hp
      subst this
      decide
    · simp only [Bool.not_eq_true] at hp
      simp [collapseRuns, hp]
  | a :: d :: rest, h => by
    have hrel := List.chain'_cons.mp h
    by_cases hpa : isHyphen a = true
    · have hpd : isHyphen d = false := by
        cases h' : isHyphen d
        · rfl
        · exact absurd ⟨hpa, h'⟩ hrel.1
      simp only [collapseRuns, hpa, hpd, if_true, Bool.false_eq_true, if_false]
      rw [← isHyphen_eq a hpa]
      congr 1
      exact collapseRuns_eq_self_of_chain hrel.2
    · simp only [Bool.not_eq_true] at hpa
      simp only [collapseRuns, hpa, Bool.false_eq_true, if_false]
      congr 1
      exact collapseRuns_eq_self_of_chain hrel.2

-- ── dropWhile / strip lemmas ──

theorem dropWhile_head_false {p : Char → Bool} :
    ∀ {l : Str} {c : Char} {t : Str}, l.dropWhile p = c :: t → p c = false
  | [], c, t, h => by simp at h
  | a :: rest, c, t, h => by
    by_cases hp : p a = true
    · rw [List.dropWhile_cons, if_pos hp] at h
      exact dropWhile_head_false h
    · simp only [Bool.not_eq_true] at hp
      rw [List.dropWhile_cons, if_neg (by simp [hp])] at h
      cases h
      exact hp

theorem dropWhile_head?_false {p : Char → Bool} {l : Str} {c : Char}
    (h : (l.dropWhile p).head? = some c) : p c = false := by
  cases hd : l.dropWhile p with
  | nil => rw [hd] at h; cases h
  | cons a t =>
    rw [hd] at h
    simp only [List.head?_cons, Option.some.injEq] at h
    exact h ▸ dropWhile_head_false hd

theorem dropWhile_eq_self_of_head {p : Char → Bool} {l : Str}
    (h : ∀ c, l.head? = some c → p c = false) : l.dropWhile p = l := by
  cases l with
  | nil => rfl
  | cons a rest =>
    rw [List.dropWhile_cons, if_neg (by simp [h a rfl])]

theorem dropWhile_idem (p : Char → Bool) (l : Str) :
    (l.dropWhile p).dropWhile p = l.dropWhile p := by
  refine dropWhile_eq_self_of_head (fun c hc => dropWhile_head?_false hc)

theorem stripBoth_getLast {p : Char → Bool} {l : Str} {c : Char}
    (h : (stripBoth p l).getLast? = some c) : p c = false := by
  unfold stripBoth at h
  rw [List.getLast?_reverse] at h
  exact dropWhile_head?_false h

theorem stripBoth_head {p : Char → Bool} {l : Str} {c : Char}
    (h : (stripBoth p l).head? = some c) : p c = false := by
  unfold stripBoth at h
  rw [List.head?_reverse] at h
  cases hX : (l.dropWhile p).reverse.dropWhile p with
  | nil => rw [hX] at h; cases h
  | cons a t =>
    have hne : (l.dropWhile p).reverse.dropWhile p ≠ [] := by simp [hX]
    have hsuf : (l.dropWhile p).reverse.dropWhile p <:+ (l.dropWhile p).reverse :=
      List.dropWhile_suffix p
    obtain ⟨s, hs⟩ := hsuf
    have h2 : (l.dropWhile p).head? = some c := by
      rw [← List.getLast?_reverse, ← hs, List.getLast?_append_of_ne_nil s hne]
      exact h
    exact dropWhile_head?_false h2

theorem stripBoth_eq_self {p : Char → Bool} {l : Str}
    (hh : ∀ c, l.head? = some c → p c = false)
    (hl : ∀ c, l.getLast? = some c → p c = false) : stripBoth p l = l := by
  unfold stripBoth
  rw [dropWhile_eq_self_of_head hh,
    dropWhile_eq_self_of_head (fun c hc => hl c (by rwa [List.head?_reverse] at hc)),
    List.reverse_reverse]

theorem stripBoth_idem (p : Char → Bool) (l : Str) :
    stripBoth p (stripBoth p l) = stripBoth p l :=
  stripBoth_eq_self (fun _ hc => stripBoth_head hc) (fun _ hc => stripBoth_getLast hc)

theorem stripHyphens_eq_stripBoth (l : Str) : stripHyphens l = stripBoth isHyphen l := rfl

theorem trimStr_eq_stripBoth (l : Str) : trimStr l = stripBoth isPySpace l := rfl

theorem mem_stripBoth {p : Char → Bool} {c : Char} {l : Str} (h : c ∈ stripBoth p l) : c ∈ l := by
  unfold stripBoth at h
  rw [List.mem_reverse] at h
  have h1 := (List.dropWhile_suffix p).subset h
  rw [List.mem_reverse] at h1
  exact (List.dropWhile_suffix p).subset h1

theorem chain'_stripBoth {R : Char → Char → Prop} (hsym : ∀ a b, R a b → R b a)
    {p : Char → Bool} {l : Str} (h : l.Chain' R) : (stripBoth p l).Chain' R := by
  have rev : ∀ {m : Str}, m.Chain' R → m.reverse.Chain' R := by
    intro m hm
    rw [List.chain'_reverse]
    exact hm.imp (fun a b hab => hsym a b hab)
  have h1 : (l.dropWhile p).Chain' R := h.suffix (List.dropWhile_suffix p)
  have h2 := rev h1
  have h3 : ((l.dropWhile p).reverse.dropWhile p).Chain' R :=
    h2.suffix (List.dropWhile_suffix p)
  exact rev h3

theorem map_eq_self_of_fix {f : Char → Char} :
    ∀ {l : Str}, (∀ c ∈ l, f c = c) → l.map f = l
  | [], _ => rfl
  | a :: rest, h => by
    rw [List.map_cons, h a (List.mem_cons_self a rest),
      map_eq_self_of_fix (fun c hc => h c (List.mem_cons_of_mem a hc))]

theorem stripBoth_eq_self_of_forall {p : Char → Bool} {l : Str}
    (h : ∀ c ∈ l, p c = false) : stripBoth p l = l :=
  stripBoth_eq_self
    (fun c hc => h c (by cases l with | nil => cases hc | cons a r =>
      simp only [List.head?_cons, Option.some.injEq] at hc; simp [hc]))
    (fun c hc => h c (by
      rcases List.mem_getLast?_eq_getLast (Option.mem_def.mpr hc) with ⟨h1, h2⟩
      rw [h2]
      exact List.getLast_mem h1))

-- ── C10: slugify is idempotent ──

theorem slugify_chars {t : Str} {c : Char} (h : c ∈ slugify t) : isSlugChar c = true := by
  unfold slugify at h
  rw [stripHyphens_eq_stripBoth] at h
  have h1 := mem_stripBoth h
  rcases mem_collapseRuns h1 with h2 | ⟨h2, _⟩
  · subst h2; decide
  · rcases mem_collapseRuns h2 with h3 | ⟨h3, hsp⟩
    · subst h3; decide
    · have := List.of_mem_filter h3
      simp only [slugKeep, Bool.or_eq_true] at this
      rcases this with (h4 | h4) | h4
      · simp [isSlugChar, h4]
      · rw [h4] at hsp; cases hsp
      · simp [isSlugChar, h4]

theorem slugify_chain (t : Str) :
    (slugify t).Chain' (fun a b => ¬(isHyphen a = true ∧ isHyphen b = true)) := by
  unfold slugify
  rw [stripHyphens_eq_stripBoth]
  exact chain'_stripBoth (fun a b hab hc => hab ⟨hc.2, hc.1⟩) (chain'_collapseRuns _)

/-- C10: `slugify` is idempotent — every output of `slugify` is a fixed point. -/
theorem slugify_idem (t : Str) : slugify (slugify t) = slugify t := by
  have hchars : ∀ c ∈ slugify t, isSlugChar c = true := fun c hc => slugify_chars hc
  have h1 : lowerStr (slugify t) = slugify t :=
    map_eq_self_of_fix (fun c hc => pyLower_slugChar (hchars c hc))
  have h2 : trimStr (slugify t) = slugify t := by
    rw [trimStr_eq_stripBoth]
    exact stripBoth_eq_self_of_forall (fun c hc => slugChar_not_space (hchars c hc))
  have h3 : (slugify t).filter slugKeep = slugify t :=
    List.filter_eq_self.mpr (fun c hc => slugChar_keep (hchars c hc))
  have h4 : collapseRuns isPySpace (slugify t) = slugify t :=
    collapseRuns_eq_self (fun c hc => slugChar_not_space (hchars c hc))
  have h5 : collapseRuns isHyphen (slugify t) = slugify t :=
    collapseRuns_eq_self_of_chain (slugify_chain t)
  have h6 : stripHyphens (slugify t) = slugify t := by
    rw [stripHyphens_eq_stripBoth]
    exact stripBoth_eq_self (fun c hc => stripBoth_head hc) (fun c hc => stripBoth_getLast hc)
  conv_lhs => rw [slugify]
  rw [h1, h2, h3, h4, h5]
  rw [h6]

-- ── Lexicographic-order and sorted-set lemmas ──

theorem charEq_of_toNat_eq {a b : Char} (h : a.toNat = b.toNat) : a = b := by
  rw [← Char.ofNat_toNat a, ← Char.ofNat_toNat b, h]

theorem strLt_irrefl : ∀ (a : Str), strLt a a = false
  | [] => rfl
  | c :: cs => by simp [strLt, strLt_irrefl cs]

theorem strLt_asymm : ∀ {a b : Str}, strLt a b = true → strLt b a = false
  | [], [], h => by simp [strLt] at h
  | [], _ :: _, _ => rfl
  | _ :: _, [], h => by simp [strLt] at h
  | a :: as, b :: bs, h => by
    by_cases hab : a.toNat < b.toNat
    · have : ¬ b.toNat < a.toNat := by omega
      simp [strLt, this, hab]
    · by_cases hba : b.toNat < a.toNat
      · simp [strLt, hab, hba] at h
      · simp only [strLt, hab, hba, if_false] at h ⊢
        exact strLt_asymm h

theorem strLt_trans : ∀ {a b c : Str}, strLt a b = true → strLt b c = true → strLt a c = true
  | [], b, [], _, h2 => by
    have hb : strLt b [] = false := by cases b <;> rfl
    rw [hb] at h2
    cases h2
  | [], _, _ :: _, _, _ => rfl
  | _ :: _, [], _, h1, _ => by simp [strLt] at h1
  | _ :: _, _ :: _, [], _, h2 => by simp [strLt] at h2
  | a :: as, b :: bs, c :: cs, h1, h2 => by
    simp only [strLt] at h1 h2 ⊢
    by_cases hab : a.toNat < b.toNat <;> by_cases hbc : b.toNat < c.toNat
    · simp [show a.toNat < c.toNat by omega]
    · simp only [hbc, if_false] at h2
      by_cases hcb : c.toNat < b.toNat
      · simp [hcb] at h2
      · have : b.toNat = c.toNat := by omega
        simp [show a.toNat < c.toNat by omega]
    · simp only [hab, if_false] at h1
      by_cases hba : b.toNat < a.toNat
      · simp [hba] at h1
      · have : a.toNat = b.toNat := by omega
        simp [show a.toNat < c.toNat by omega]
    · simp only [hab, if_false] at h1
      by_cases hba : b.toNat < a.toNat
      · simp [hba] at h1
      · simp only [hba, if_false] at h1
        simp only [hbc, if_false] at h2
        by_cases hcb : c.toNat < b.toNat
        · simp [hcb] at h2
        · simp only [hcb, if_false] at h2
          have hac : ¬ a.toNat < c.toNat := by omega
          have hca : ¬ c.toNat < a.toNat := by omega
          simp only [hac, hca, if_false]
          exact strLt_trans h1 h2

theorem strLt_total : ∀ {a b : Str}, strLt a b = false → strLt b a = false → a = b
  | [], [], _, _ => rfl
  | [], _ :: _, h1, _ => by simp [strLt] at h1
  | _ :: _, [], _, h2 => by simp [strLt] at h2
  | a :: as, b :: bs, h1, h2 => by
    simp only [strLt] at h1 h2
    by_cases hab : a.toNat < b.toNat
    · simp [hab] at h1
    · by_cases hba : b.toNat < a.toNat
      · simp [hba] at h2
      · have hn : a.toNat = b.toNat := by omega
        have he := charEq_of_toNat_eq hn
        simp only [hab, hba, if_false] at h1 h2
        rw [he, strLt_total h1 h2]

theorem strLt_ne {a b : Str} (h : strLt a b = true) : a ≠ b := by
  intro he
  subst he
  rw [strLt_irrefl] at h
  cases h

theorem mem_setInsert {a x : Str} :
    ∀ {l : List Str}, a ∈ setInsert x l ↔ a = x ∨ a ∈ l
  | [] => by simp [setInsert]
  | y :: ys => by
    by_cases h1 : strLt x y = true
    · simp [setInsert, h1]
    · by_cases h2 : strLt y x = true
      · simp only [setInsert, h1, h2, Bool.false_eq_true, if_false, if_true, List.mem_cons]
        rw [mem_setInsert]
        tauto
      · have hxy : x = y :=
          (strLt_total (Bool.eq_false_iff.mpr h1) (Bool.eq_false_iff.mpr h2)).symm.symm
        simp only [setInsert, h1, h2, Bool.false_eq_true, if_false, List.mem_cons]
        subst hxy
        tauto

theorem pairwise_setInsert {x : Str} :
    ∀ {l : List Str}, l.Pairwise (fun a b => strLt a b = true) →
      (setInsert x l).Pairwise (fun a b => strLt a b = true)
  | [], _ => by simp [setInsert]
  | y :: ys, h => by
    rcases List.pairwise_cons.mp h with ⟨hy, hys⟩
    by_cases h1 : strLt x y = true
    · simp only [setInsert, h1, if_true]
      exact List.pairwise_cons.mpr ⟨by
        intro z hz
        rcases List.mem_cons.mp hz with hz | hz
        · exact hz ▸ h1
        · exact strLt_trans h1 (hy z hz), h⟩
    · by_cases h2 : strLt y x = true
      · simp only [setInsert, h1, h2, Bool.false_eq_true, if_false, if_true]
        refine List.pairwise_cons.mpr ⟨?_, pairwise_setInsert hys⟩
        intro z hz
        rcases mem_setInsert.mp hz with hz | hz
        · exact hz ▸ h2
        · exact hy z hz
      · simpa [setInsert, h1, h2] using h

theorem mem_foldl_setInsert {a : Str} :
    ∀ (l : List Str) (acc : List Str),
      a ∈ l.foldl (fun acc x => setInsert x acc) acc ↔ a ∈ acc ∨ a ∈ l
  | [], acc => by simp
  | x :: xs, acc => by
    rw [List.foldl_cons, mem_foldl_setInsert xs (setInsert x acc)]
    rw [mem_setInsert]
    simp only [List.mem_cons]
    tauto

theorem pairwise_foldl_setInsert :
    ∀ (l : List Str) (acc : List Str),
      acc.Pairwise (fun a b => strLt a b = true) →
      (l.foldl (fun acc x => setInsert x acc) acc).Pairwise (fun a b => strLt a b = true)
  | [], acc, h => h
  | x :: xs, acc, h => by
    rw [List.foldl_cons]
    exact pairwise_foldl_setInsert xs (setInsert x acc) (pairwise_setInsert h)

theorem mem_sortedSet {a : Str} {l : List Str} : a ∈ sortedSet l ↔ a ∈ l := by
  unfold sortedSet
  rw [mem_foldl_setInsert]
  simp

theorem pairwise_sortedSet (l : List Str) :
    (sortedSet l).Pairwise (fun a b => strLt a b = true) :=
  pairwise_foldl_setInsert l [] (List.Pairwise.nil)

/-- C7: the Enricher's token list is strictly ascending (hence duplicate-free),
and a string is a token exactly when it arises as the cleaned (lowercased,
non-alphanumeric-stripped) form of a whitespace-separated word of some
surface form and has length at least 2. -/
theorem derive_tokens_spec (forms : List Str) :
    (derive_tokens forms).Pairwise (fun a b => strLt a b = true) ∧
    (∀ t : Str, t ∈ derive_tokens forms ↔
      ∃ form ∈ forms, ∃ w ∈ pyWords (lowerStr form), cleanToken w = t ∧ 2 ≤ t.length) := by
  constructor
  · exact pairwise_sortedSet _
  · intro t
    unfold derive_tokens
    rw [mem_sortedSet, List.mem_flatten]
    constructor
    · rintro ⟨ts, hts, htm⟩
      rcases List.mem_map.mp hts with ⟨form, hform, rfl⟩
      rcases List.mem_filter.mp htm with ⟨hmap, hlen⟩
      rcases List.mem_map.mp hmap with ⟨w, hw, rfl⟩
      exact ⟨form, hform, w, hw, rfl, by simpa using hlen⟩
    · rintro ⟨form, hform, w, hw, rfl, hlen⟩
      refine ⟨tokensOfForm form, List.mem_map.mpr ⟨form, hform, rfl⟩, ?_⟩
      exact List.mem_filter.mpr ⟨List.mem_map.mpr ⟨w, hw, rfl⟩, by simpa using hlen⟩

-- ── Merge-engine lemmas ──

theorem mergeOne_slug (s1 s2 : List (Str × NRec)) (slug : Str) :
    (mergeOne s1 s2 slug).slug = slug := by
  unfold mergeOne
  cases lookupN s1 slug <;> cases lookupN s2 slug <;> rfl

theorem findSlug_map_mergeOne {s1 s2 : List (Str × NRec)} {slug : Str} :
    ∀ {all : List Str}, all.Pairwise (fun a b => strLt a b = true) → slug ∈ all →
      findSlug (all.map (mergeOne s1 s2)) slug = some (mergeOne s1 s2 slug)
  | [], _, hm => by cases hm
  | y :: ys, hp, hm => by
    rcases List.pairwise_cons.mp hp with ⟨_, hys⟩
    by_cases hy : y = slug
    · subst hy
      unfold findSlug
      rw [List.map_cons, List.find?_cons_of_pos _ (by simp [mergeOne_slug])]
    · have hm' : slug ∈ ys := by
        rcases List.mem_cons.mp hm with h | h
        · exact absurd h.symm hy
        · exact h
      unfold findSlug
      rw [List.map_cons, List.find?_cons_of_neg _ (by simp [mergeOne_slug, hy])]
      exact findSlug_map_mergeOne hys hm'

theorem lookupN_key_mem {m : List (Str × NRec)} {k : Str} {e : NRec}
    (h : lookupN m k = some e) : k ∈ m.map Prod.fst := by
  unfold lookupN at h
  cases hf : m.find? (fun p => decide (p.1 = k)) with
  | none => rw [hf] at h; cases h
  | some p =>
    have hp := List.find?_some hf
    have hmem := List.mem_of_find?_eq_some hf
    simp only [decide_eq_true_eq] at hp
    exact hp ▸ List.mem_map.mpr ⟨p, hmem, rfl⟩

/-- C2: for a slug present in both normalized maps, the merged record takes
source B's displayName, source B's external id with fallback to source A's
(normalized ids are never `some 0`, which the hypothesis records), and the
ordered case-insensitive dedup of B's surface forms followed by A's. -/
theorem merge_both_spec (s1 s2 : List (Str × NRec)) (slug : Str) (e1 e2 : NRec)
    (h1 : lookupN s1 slug = some e1) (h2 : lookupN s2 slug = some e2)
    (h0 : e2.fdcId ≠ some 0) :
    findSlug (merge_entries s1 s2) slug = some
      { slug := slug
        displayName := e2.displayName
        surfaceForms := dedup_ordered (e2.surfaceForms ++ e1.surfaceForms)
        fdcId := match e2.fdcId with
                 | Option.some n => Option.some n
                 | Option.none => e1.fdcId } := by
  unfold merge_entries
  have hmem : slug ∈ sortedSet (s1.map Prod.fst ++ s2.map Prod.fst) :=
    mem_sortedSet.mpr (List.mem_append.mpr (Or.inl (lookupN_key_mem h1)))
  rw [findSlug_map_mergeOne (pairwise_sortedSet _) hmem]
  unfold mergeOne
  rw [h1, h2]
  congr 1
  cases hf : e2.fdcId with
  | none => simp [pyOr, hf]
  | some n =>
    have : n ≠ 0 := fun h => h0 (by rw [hf, h])
    simp [pyOr, hf, this]

/-- Witness for C2 on two concrete one-record maps. -/
theorem merge_both_spec_witness :
    findSlug (merge_entries [(s2l "tomato", c2e1)] [(s2l "tomato", c2e2)]) (s2l "tomato") =
      some { slug := s2l "tomato", displayName := s2l "Tomato B"
             surfaceForms := [s2l "Tomato", s2l "roma"], fdcId := Option.some 7 } :=
  (merge_both_spec [(s2l "tomato", c2e1)] [(s2l "tomato", c2e2)] (s2l "tomato") c2e1 c2e2
    (by decide) (by decide) (by decide)).trans (by decide)

-- ── Patch-applier basics: addForm / addForms ──

theorem map_id_of_fix {α : Type} {f : α → α} :
    ∀ {l : List α}, (∀ a ∈ l, f a = a) → l.map f = l
  | [], _ => rfl
  | a :: rest, h => by
    rw [List.map_cons, h a (List.mem_cons_self a rest),
      map_id_of_fix (fun c hc => h c (List.mem_cons_of_mem a hc))]

theorem lowerMem_append {sfs t : List Str} {f : Str} (h : lowerMem sfs f = true) :
    lowerMem (sfs ++ t) f = true := by
  unfold lowerMem at h ⊢
  rw [List.any_append, h, Bool.true_or]

theorem lowerMem_of_mem {sfs : List Str} {f : Str} (h : f ∈ sfs) : lowerMem sfs f = true := by
  unfold lowerMem
  rw [List.any_eq_true]
  exact ⟨f, h, by simp⟩

theorem addForm_append (sfs : List Str) (f : Str) :
    ∃ t, addForm sfs f = sfs ++ t := by
  unfold addForm
  by_cases h : lowerMem sfs f = true
  · exact ⟨[], by simp [h]⟩
  · exact ⟨[f], by simp [h]⟩

theorem addForms_append : ∀ (forms sfs : List Str), ∃ t, addForms sfs forms = sfs ++ t
  | [], sfs => ⟨[], by simp [addForms]⟩
  | f :: rest, sfs => by
    obtain ⟨t1, h1⟩ := addForm_append sfs f
    obtain ⟨t2, h2⟩ := addForms_append rest (addForm sfs f)
    exact ⟨t1 ++ t2, by
      unfold addForms at h2 ⊢
      rw [List.foldl_cons, h2, h1, List.append_assoc]⟩

theorem lowerMem_addForm_self (sfs : List Str) (f : Str) :
    lowerMem (addForm sfs f) f = true := by
  unfold addForm
  by_cases h : lowerMem sfs f = true
  · rw [if_pos h]
    exact h
  · rw [if_neg h]
    exact lowerMem_of_mem (List.mem_append_right sfs (List.mem_singleton_self f))

theorem addForms_mem : ∀ (forms sfs : List Str) (f : Str), f ∈ forms →
    lowerMem (addForms sfs forms) f = true
  | [], _, _, h => absurd h (List.not_mem_nil _)
  | g :: rest, sfs, f, h => by
    rcases List.mem_cons.mp h with h' | h'
    · subst h'
      obtain ⟨t, ht⟩ := addForms_append rest (addForm sfs f)
      unfold addForms at ht ⊢
      rw [List.foldl_cons, ht]
      exact lowerMem_append (lowerMem_addForm_self sfs f)
    · unfold addForms
      rw [List.foldl_cons]
      exact addForms_mem rest (addForm sfs g) f h'

theorem addForms_eq_self : ∀ (forms sfs : List Str),
    (∀ f ∈ forms, lowerMem sfs f = true) → addForms sfs forms = sfs
  | [], _, _ => rfl
  | g :: rest, sfs, h => by
    have hg : addForm sfs g = sfs := by
      unfold addForm
      rw [h g (List.mem_cons_self g rest)]
      simp
    unfold addForms
    rw [List.foldl_cons, hg]
    exact addForms_eq_self rest sfs (fun f hf => h f (List.mem_cons_of_mem g hf))

-- ── Frame relation ──

theorem frame_refl (e : Entry) : framePreserved e e :=
  ⟨rfl, rfl, rfl, rfl, rfl, rfl, rfl, rfl, rfl, [], by simp⟩

theorem frame_trans {a b c : Entry} (h1 : framePreserved a b) (h2 : framePreserved b c) :
    framePreserved a c := by
  obtain ⟨s1, d1, t1, m1, a1, f1, q1, x1, u1, e1, he1⟩ := h1
  obtain ⟨s2, d2, t2, m2, a2, f2, q2, x2, u2, e2, he2⟩ := h2
  refine ⟨s2.trans s1, d2.trans d1, t2.trans t1, m2.trans m1, a2.trans a1, f2.trans f1,
    q2.trans q1, x2.trans x1, u2.trans u1, e1 ++ e2, ?_⟩
  rw [he2, he1, List.append_assoc]

theorem frame_slug {a b : Entry} (h : framePreserved a b) : b.slug = a.slug := h.1

theorem frame_sf {a b : Entry} (h : framePreserved a b) :
    ∃ t, b.surfaceForms = a.surfaceForms ++ t := h.2.2.2.2.2.2.2.2.2

theorem forall2_frame_refl : ∀ (l : List Entry), List.Forall₂ framePreserved l l
  | [] => List.Forall₂.nil
  | e :: rest => List.Forall₂.cons (frame_refl e) (forall2_frame_refl rest)

theorem forall2_frame_trans : ∀ {a b c : List Entry}, List.Forall₂ framePreserved a b →
    List.Forall₂ framePreserved b c → List.Forall₂ framePreserved a c
  | [], [], [], _, _ => List.Forall₂.nil
  | _ :: _, _ :: _, _ :: _, List.Forall₂.cons h1 t1, List.Forall₂.cons h2 t2 =>
    List.Forall₂.cons (frame_trans h1 h2) (forall2_frame_trans t1 t2)

theorem forall2_frame_slugs : ∀ {l l' : List Entry}, List.Forall₂ framePreserved l l' →
    l'.map Entry.slug = l.map Entry.slug
  | [], [], _ => rfl
  | _ :: _, _ :: _, List.Forall₂.cons h t => by
    rw [List.map_cons, List.map_cons, frame_slug h, forall2_frame_slugs t]

theorem forall2_frame_mem : ∀ {l l' : List Entry}, List.Forall₂ framePreserved l l' →
    ∀ {e : Entry}, e ∈ l → ∃ e' ∈ l', framePreserved e e'
  | _ :: _, _ :: _, List.Forall₂.cons h t, e, he => by
    rcases List.mem_cons.mp he with h' | h'
    · exact ⟨_, List.mem_cons_self _ _, h' ▸ h⟩
    · obtain ⟨e', he', hf⟩ := forall2_frame_mem t h'
      exact ⟨e', List.mem_cons_of_mem _ he', hf⟩

theorem forall2_snoc {R : Entry → Entry → Prop} :
    ∀ {l : List Entry} {x : Entry} {m : List Entry}, List.Forall₂ R (l ++ [x]) m →
      ∃ m1 y, m = m1 ++ [y] ∧ List.Forall₂ R l m1 ∧ R x y
  | [], x, m, h => by
    cases h with
    | cons hxy htail =>
      cases htail
      exact ⟨[], _, rfl, List.Forall₂.nil, hxy⟩
  | a :: rest, x, m, h => by
    cases h with
    | cons hab htail =>
      obtain ⟨m1, y, rfl, hf, hr⟩ := forall2_snoc htail
      exact ⟨_ :: m1, y, rfl, List.Forall₂.cons hab hf, hr⟩

-- ── hasSlug and slug bookkeeping ──

theorem hasSlug_iff {O : List Entry} {s : Str} :
    hasSlug O s = true ↔ s ∈ O.map Entry.slug := by
  unfold hasSlug
  rw [List.any_eq_true]
  constructor
  · rintro ⟨e, he, hd⟩
    simp only [decide_eq_true_eq] at hd
    exact hd ▸ List.mem_map.mpr ⟨e, he, rfl⟩
  · intro h
    rcases List.mem_map.mp h with ⟨e, he, rfl⟩
    exact ⟨e, he, by simp⟩

theorem hasSlug_congr {O O' : List Entry} (h : O'.map Entry.slug = O.map Entry.slug)
    (s : Str) : hasSlug O' s = hasSlug O s := by
  cases hh : hasSlug O s
  · cases hh' : hasSlug O' s
    · rfl
    · exact absurd (hasSlug_iff.mpr (h ▸ hasSlug_iff.mp hh')) (by simp [hh])
  · exact hasSlug_iff.mpr (h ▸ hasSlug_iff.mp hh)

theorem hasSlug_append (l1 l2 : List Entry) (s : Str) :
    hasSlug (l1 ++ l2) s = (hasSlug l1 s || hasSlug l2 s) := by
  unfold hasSlug
  exact List.any_append

theorem mem_slug_unique : ∀ {X : List Entry}, (X.map Entry.slug).Nodup →
    ∀ {y e : Entry}, y ∈ X → e ∈ X → y.slug = e.slug → y = e
  | [], _, _, _, hy, _, _ => absurd hy (List.not_mem_nil _)
  | a :: rest, hnd, y, e, hy, he, hslug => by
    rw [List.map_cons, List.nodup_cons] at hnd
    rcases List.mem_cons.mp hy with hy' | hy' <;> rcases List.mem_cons.mp he with he' | he'
    · exact hy'.trans he'.symm
    · subst hy'
      exact absurd (hslug ▸ List.mem_map.mpr ⟨e, he', rfl⟩) hnd.1
    · subst he'
      exact absurd (hslug ▸ List.mem_map.mpr ⟨y, hy', rfl⟩) hnd.1
    · exact mem_slug_unique hnd.2 hy' he' hslug

-- ── step1 lemmas ──

theorem patchForms_slug_fix (O : List Entry) (s : Str) (fs : List Str) :
    List.Forall₂ framePreserved O (patchForms O s fs) := by
  unfold patchForms
  induction O with
  | nil => exact List.Forall₂.nil
  | cons e rest ih =>
    rw [List.map_cons]
    refine List.Forall₂.cons ?_ ih
    by_cases h : e.slug = s
    · obtain ⟨t, ht⟩ := addForms_append fs e.surfaceForms
      exact ⟨by simp [h], by simp [h], by simp [h], by simp [h], by simp [h], by simp [h],
        by simp [h], by simp [h], by simp [h], t, by simp [h, ht]⟩
    · simp only [h, if_false]
      exact frame_refl e

theorem step1Pair_frame (O : List Entry) (p : Str × List Str) :
    List.Forall₂ framePreserved O (step1Pair O p) := by
  unfold step1Pair
  by_cases h : hasSlug O p.1 = true
  · rw [if_pos h]
    exact patchForms_slug_fix O p.1 p.2
  · rw [if_neg h]
    exact forall2_frame_refl O

theorem foldl_step1PairLog_fst : ∀ (ps : List (Str × List Str)) (O : List Entry)
    (ws : List Str), (ps.foldl step1PairLog (O, ws)).1 = ps.foldl step1Pair O
  | [], _, _ => rfl
  | p :: rest, O, ws => by
    rw [List.foldl_cons, List.foldl_cons]
    unfold step1PairLog step1Pair
    by_cases h : hasSlug O p.1 = true
    · simp only [h, if_true]
      exact foldl_step1PairLog_fst rest _ ws
    · simp only [h, Bool.false_eq_true, if_false]
      exact foldl_step1PairLog_fst rest O _

theorem step1_eq_foldl (O : List Entry) (ps : List (Str × List Str)) :
    step1 O ps = ps.foldl step1Pair O :=
  foldl_step1PairLog_fst ps O []

theorem step1_frame : ∀ (ps : List (Str × List Str)) (O : List Entry),
    List.Forall₂ framePreserved O (step1 O ps)
  | [], O => by rw [step1_eq_foldl]; exact forall2_frame_refl O
  | p :: rest, O => by
    rw [step1_eq_foldl, List.foldl_cons]
    have h2 := step1_frame rest (step1Pair O p)
    rw [step1_eq_foldl] at h2
    exact forall2_frame_trans (step1Pair_frame O p) h2

-- ── step2 lemmas ──

theorem enrich_new_entry_slug (c : NewEntry) : (enrich_new_entry c).slug = c.slug := rfl

theorem step2_structure : ∀ (cs : List NewEntry) (O : List Entry),
    ∃ O' new, step2 O cs = O' ++ new ∧ List.Forall₂ framePreserved O O' ∧
      ∀ n ∈ new, hasSlug O n.slug = false
  | [], O => ⟨O, [], by simp [step2], forall2_frame_refl O, fun n hn => absurd hn (List.not_mem_nil n)⟩
  | c :: cs, O => by
    have hstep : step2 O (c :: cs) = step2 (step2Cand O c) cs := by
      unfold step2
      rw [List.foldl_cons]
    by_cases h : hasSlug O c.slug = true
    · have hcand : step2Cand O c = patchForms O c.slug c.surfaceForms := by
        unfold step2Cand
        rw [if_pos h]
      obtain ⟨O', new, heq, hf, hnew⟩ := step2_structure cs (step2Cand O c)
      refine ⟨O', new, hstep.trans heq, ?_, ?_⟩
      · exact forall2_frame_trans (hcand ▸ patchForms_slug_fix O c.slug c.surfaceForms) hf
      · intro n hn
        have hthis := hnew n hn
        have hslugs : (step2Cand O c).map Entry.slug = O.map Entry.slug := by
          rw [hcand]
          exact forall2_frame_slugs (patchForms_slug_fix O c.slug c.surfaceForms)
        rwa [hasSlug_congr hslugs n.slug] at hthis
    · have hcand : step2Cand O c = O ++ [enrich_new_entry c] := by
        unfold step2Cand
        rw [if_neg h]
      obtain ⟨Y, new1, heq, hf, hnew⟩ := step2_structure cs (step2Cand O c)
      rw [hcand] at hf
      obtain ⟨Y1, y0, rfl, hfO, hy0⟩ := forall2_snoc hf
      refine ⟨Y1, y0 :: new1, ?_, hfO, ?_⟩
      · rw [hstep, heq, List.append_assoc]
        rfl
      · intro n hn
        rcases List.mem_cons.mp hn with hn' | hn'
        · subst hn'
          rw [frame_slug hy0, enrich_new_entry_slug]
          simp only [Bool.not_eq_true] at h
          exact h
        · have := hnew n hn'
          rw [hcand, hasSlug_append] at this
          exact (Bool.or_eq_false_iff.mp this).1

theorem frame_mem_step2 (cs : List NewEntry) (O : List Entry) {e : Entry} (he : e ∈ O) :
    ∃ e' ∈ step2 O cs, framePreserved e e' := by
  obtain ⟨O', new, heq, hf, _⟩ := step2_structure cs O
  obtain ⟨e', he', hfe⟩ := forall2_frame_mem hf he
  exact ⟨e', heq ▸ List.mem_append_left new he', hfe⟩

theorem step2_slug_nodup : ∀ (cs : List NewEntry) (O : List Entry),
    (O.map Entry.slug).Nodup → ((step2 O cs).map Entry.slug).Nodup
  | [], O, h => by simpa [step2] using h
  | c :: cs, O, h => by
    have hstep : step2 O (c :: cs) = step2 (step2Cand O c) cs := by
      unfold step2
      rw [List.foldl_cons]
    rw [hstep]
    refine step2_slug_nodup cs (step2Cand O c) ?_
    by_cases hc : hasSlug O c.slug = true
    · have hcand : step2Cand O c = patchForms O c.slug c.surfaceForms := by
        unfold step2Cand
        rw [if_pos hc]
      rw [hcand, forall2_frame_slugs (patchForms_slug_fix O c.slug c.surfaceForms)]
      exact h
    · have hcand : step2Cand O c = O ++ [enrich_new_entry c] := by
        unfold step2Cand
        rw [if_neg hc]
      rw [hcand, List.map_append]
      rw [List.nodup_append]
      refine ⟨h, List.nodup_singleton _, ?_⟩
      intro a ha hb
      simp only [List.map_cons, List.map_nil, List.mem_singleton, enrich_new_entry_slug] at hb
      subst hb
      exact hc (hasSlug_iff.mpr ha)

-- ── sortEntries lemmas ──

theorem insertEntry_perm (e : Entry) : ∀ (l : List Entry), List.Perm (insertEntry e l) (e :: l)
  | [] => List.Perm.refl [e]
  | y :: ys => by
    unfold insertEntry
    by_cases h : strLe e.slug y.slug = true
    · rw [if_pos h]
    · rw [if_neg h]
      exact ((insertEntry_perm e ys).cons y).trans (List.Perm.swap e y ys)

theorem sortEntries_perm : ∀ (l : List Entry), List.Perm (sortEntries l) l
  | [] => List.Perm.refl []
  | x :: xs => by
    unfold sortEntries
    rw [List.foldr_cons]
    exact (insertEntry_perm x _).trans ((sortEntries_perm xs).cons x)

theorem mem_sortEntries {e : Entry} {l : List Entry} : e ∈ sortEntries l ↔ e ∈ l :=
  (sortEntries_perm l).mem_iff

theorem strLe_of_not_strLe {a b : Str} (h : ¬ strLe a b = true) : strLe b a = true := by
  unfold strLe at h ⊢
  have hba : strLt b a = true := by
    cases hb : strLt b a
    · exact absurd (by rw [hb]; rfl) h
    · rfl
  rw [strLt_asymm hba]
  rfl

theorem insertEntry_head (e : Entry) (l : List Entry) :
    (insertEntry e l).head? = some e ∨ (insertEntry e l).head? = l.head? := by
  cases l with
  | nil => exact Or.inl rfl
  | cons y ys =>
    unfold insertEntry
    by_cases h : strLe e.slug y.slug = true
    · rw [if_pos h]
      exact Or.inl rfl
    · rw [if_neg h]
      exact Or.inr rfl

theorem insertEntry_chain (e : Entry) :
    ∀ {l : List Entry}, l.Chain' (fun a b => strLe a.slug b.slug = true) →
      (insertEntry e l).Chain' (fun a b => strLe a.slug b.slug = true)
  | [], _ => List.chain'_singleton e
  | y :: ys, h => by
    unfold insertEntry
    by_cases hle : strLe e.slug y.slug = true
    · rw [if_pos hle]
      exact List.chain'_cons.mpr ⟨hle, h⟩
    · rw [if_neg hle]
      rcases List.chain'_cons'.mp h with ⟨hy, hys⟩
      refine List.chain'_cons'.mpr ⟨?_, insertEntry_chain e hys⟩
      intro z hz
      rcases insertEntry_head e ys with hh | hh
      · rw [hh] at hz
        simp only [Option.mem_def, Option.some.injEq] at hz
        subst hz
        exact strLe_of_not_strLe hle
      · rw [hh] at hz
        exact hy z hz

theorem sortEntries_chain : ∀ (l : List Entry),
    (sortEntries l).Chain' (fun a b => strLe a.slug b.slug = true)
  | [] => List.chain'_nil
  | x :: xs => by
    unfold sortEntries
    rw [List.foldr_cons]
    exact insertEntry_chain x (sortEntries_chain xs)

theorem sortEntries_of_chain :
    ∀ {l : List Entry}, l.Chain' (fun a b => strLe a.slug b.slug = true) → sortEntries l = l
  | [], _ => rfl
  | [x], _ => rfl
  | x :: y :: ys, h => by
    rcases List.chain'_cons.mp h with ⟨hxy, hrest⟩
    unfold sortEntries
    rw [List.foldr_cons]
    have ih : sortEntries (y :: ys) = y :: ys := sortEntries_of_chain hrest
    unfold sortEntries at ih
    rw [ih]
    unfold insertEntry
    rw [if_pos hxy]

theorem sortEntries_idem (l : List Entry) : sortEntries (sortEntries l) = sortEntries l :=
  sortEntries_of_chain (sortEntries_chain l)

-- ── Unfolding helpers for the step functions ──

theorem step1Pair_of_present {X : List Entry} {p : Str × List Str}
    (h : hasSlug X p.1 = true) : step1Pair X p = patchForms X p.1 p.2 := by
  unfold step1Pair
  rw [if_pos h]

theorem step1Pair_of_absent {X : List Entry} {p : Str × List Str}
    (h : hasSlug X p.1 = false) : step1Pair X p = X := by
  unfold step1Pair
  rw [if_neg (by rw [h]; exact Bool.false_ne_true)]

theorem step1PairLog_of_present {ac : List Entry × List Str} {p : Str × List Str}
    (h : hasSlug ac.1 p.1 = true) : step1PairLog ac p = (patchForms ac.1 p.1 p.2, ac.2) := by
  unfold step1PairLog
  rw [if_pos h]

theorem step1PairLog_of_absent {ac : List Entry × List Str} {p : Str × List Str}
    (h : hasSlug ac.1 p.1 = false) : step1PairLog ac p = (ac.1, ac.2 ++ [p.1]) := by
  unfold step1PairLog
  rw [if_neg (by rw [h]; exact Bool.false_ne_true)]

theorem step2Cand_of_present {X : List Entry} {c : NewEntry}
    (h : hasSlug X c.slug = true) : step2Cand X c = patchForms X c.slug c.surfaceForms := by
  unfold step2Cand
  rw [if_pos h]

theorem step2Cand_of_absent {X : List Entry} {c : NewEntry}
    (h : hasSlug X c.slug = false) : step2Cand X c = X ++ [enrich_new_entry c] := by
  unfold step2Cand
  rw [if_neg (by rw [h]; exact Bool.false_ne_true)]

-- ── Frame preservation through the whole patch (C6) ──

theorem forall2_frame_nodup_unique {L L' : List Entry}
    (hf : List.Forall₂ framePreserved L L') {e e' : Entry} (hslug : e'.slug = e.slug) :
    (L.map Entry.slug).Nodup → e ∈ L → e' ∈ L' → framePreserved e e' := by
  induction hf with
  | nil => intro _ he _; cases he
  | @cons a b l1 l2 hab htail ih =>
    intro hnd he he'
    rw [List.map_cons, List.nodup_cons] at hnd
    rcases List.mem_cons.mp he with he1 | he1 <;> rcases List.mem_cons.mp he' with he2 | he2
    · subst he1; subst he2; exact hab
    · subst he1
      exfalso
      apply hnd.1
      rw [← forall2_frame_slugs htail]
      exact hslug ▸ List.mem_map.mpr ⟨e', he2, rfl⟩
    · subst he2
      exfalso
      apply hnd.1
      have ha : a.slug = e.slug := (frame_slug hab).symm.trans hslug
      rw [ha]
      exact List.mem_map.mpr ⟨e, he1, rfl⟩
    · exact ih hnd.2 he1 he2

theorem applyPatch_structure (O : List Entry) (P : PatchSpec) :
    ∃ O' new, List.Perm (applyPatch O P) (O' ++ new) ∧
      List.Forall₂ framePreserved O O' ∧ ∀ n ∈ new, hasSlug O n.slug = false := by
  obtain ⟨O', new, heq, hf2, hnew⟩ := step2_structure P.newEntries (step1 O P.surfacePatches)
  refine ⟨O', new, ?_, ?_, ?_⟩
  · unfold applyPatch
    rw [heq]
    exact sortEntries_perm _
  · exact forall2_frame_trans (step1_frame P.surfacePatches O) hf2
  · intro n hn
    have hthis := hnew n hn
    rwa [hasSlug_congr (forall2_frame_slugs (step1_frame P.surfacePatches O)) n.slug] at hthis

/-- C6: a patch leaves every pre-existing entry's displayName, fdc reference,
equivalenceClass, tokens and modifiers unchanged and only appends to its
surfaceForms; moreover every output entry carrying a pre-existing slug is such
a frame-preserving descendant (tokens/modifiers are not re-derived). -/
theorem patch_field_freeze (O : List Entry) (P : PatchSpec) (e : Entry)
    (hnd : (O.map Entry.slug).Nodup) (he : e ∈ O) :
    (∃ e' ∈ applyPatch O P, framePreserved e e') ∧
    (∀ e' ∈ applyPatch O P, e'.slug = e.slug → framePreserved e e') := by
  obtain ⟨O', new, hperm, hf, hnew⟩ := applyPatch_structure O P
  constructor
  · obtain ⟨e', he', hfe⟩ := forall2_frame_mem hf he
    exact ⟨e', hperm.mem_iff.mpr (List.mem_append_left new he'), hfe⟩
  · intro e' he' hslug
    have hm : e' ∈ O' ++ new := hperm.mem_iff.mp he'
    rcases List.mem_append.mp hm with hm | hm
    · exact forall2_frame_nodup_unique hf hslug hnd he hm
    · exfalso
      have h1 := hnew e' hm
      rw [hslug] at h1
      have h2 : hasSlug O e.slug = true := hasSlug_iff.mpr (List.mem_map.mpr ⟨e, he, rfl⟩)
      rw [h1] at h2
      cases h2

/-- Witness for C6: the `salt` entry survives `saltPatch` frame-preserved. -/
theorem patch_field_freeze_witness :
    ∃ e' ∈ applyPatch [saltEntry] saltPatch, framePreserved saltEntry e' :=
  (patch_field_freeze [saltEntry] saltPatch saltEntry (by decide)
    (List.mem_singleton_self saltEntry)).1

-- ── Unknown-slug skipping (C9) ──

theorem step1Log_warn_mono : ∀ (ps : List (Str × List Str)) (O : List Entry) (ws : List Str),
    ∃ t, (ps.foldl step1PairLog (O, ws)).2 = ws ++ t
  | [], _, ws => ⟨[], by simp⟩
  | p :: rest, O, ws => by
    rw [List.foldl_cons]
    by_cases h : hasSlug O p.1 = true
    · rw [@step1PairLog_of_present (O, ws) p h]
      exact step1Log_warn_mono rest _ ws
    · rw [@step1PairLog_of_absent (O, ws) p (Bool.not_eq_true _ ▸ h)]
      obtain ⟨t, ht⟩ := step1Log_warn_mono rest O (ws ++ [p.1])
      exact ⟨[p.1] ++ t, by rw [ht, List.append_assoc]⟩

/-- C9: a surface-form patch pair naming a slug absent from the knowledge base
is skipped — the resulting ontology equals the one obtained with that pair
removed (all other pairs and all new-entry candidates still apply) — and the
slug is recorded in the warning log. -/
theorem unknown_slug_skipped (O : List Entry) (ps1 ps2 : List (Str × List Str))
    (s : Str) (fs : List Str) (cs : List NewEntry) (habs : hasSlug O s = false) :
    applyPatch O { surfacePatches := ps1 ++ (s, fs) :: ps2, newEntries := cs } =
      applyPatch O { surfacePatches := ps1 ++ ps2, newEntries := cs } ∧
    s ∈ (step1Log O (ps1 ++ (s, fs) :: ps2)).2 := by
  have hX : hasSlug (ps1.foldl step1Pair O) s = false := by
    have hs : (ps1.foldl step1Pair O).map Entry.slug = O.map Entry.slug := by
      rw [← step1_eq_foldl]
      exact forall2_frame_slugs (step1_frame ps1 O)
    rw [hasSlug_congr hs s]
    exact habs
  constructor
  · unfold applyPatch
    congr 1
    show step2 (step1 O (ps1 ++ (s, fs) :: ps2)) cs = step2 (step1 O (ps1 ++ ps2)) cs
    congr 1
    rw [step1_eq_foldl, step1_eq_foldl, List.foldl_append, List.foldl_append, List.foldl_cons]
    rw [step1Pair_of_absent (p := (s, fs)) hX]
  · unfold step1Log
    rw [List.foldl_append, List.foldl_cons]
    have hfst : (ps1.foldl step1PairLog (O, [])).1 = ps1.foldl step1Pair O :=
      foldl_step1PairLog_fst ps1 O []
    rw [step1PairLog_of_absent (p := (s, fs)) (by rw [hfst]; exact hX)]
    obtain ⟨t, ht⟩ := step1Log_warn_mono ps2 (ps1.foldl step1PairLog (O, [])).1
      ((ps1.foldl step1PairLog (O, [])).2 ++ [s])
    rw [ht]
    exact List.mem_append_left t
      (List.mem_append_right _ (List.mem_singleton_self s))

/-- Witness for C9 at a concrete unknown slug. -/
theorem unknown_slug_skipped_witness :
    applyPatch [saltEntry]
        { surfacePatches := [(s2l "pepper", [s2l "black pepper"])], newEntries := [] } =
      applyPatch [saltEntry] { surfacePatches := [], newEntries := [] } ∧
    s2l "pepper" ∈ (step1Log [saltEntry] [(s2l "pepper", [s2l "black pepper"])]).2 :=
  unknown_slug_skipped [saltEntry] [] [] (s2l "pepper") [s2l "black pepper"] [] (by decide)

-- ── Case-insensitive surface-form uniqueness (C8) ──

theorem charOfNat_toNat {n : Nat} (h : n.isValidChar) : (Char.ofNat n).toNat = n := by
  unfold Char.ofNat
  rw [dif_pos h]
  rfl

theorem pyLower_space (c : Char) : isPySpace (pyLower c) = isPySpace c := by
  by_cases hu : isUpperAlpha c = true
  · have hn : 65 ≤ c.toNat ∧ c.toNat ≤ 90 := by
      simpa only [isUpperAlpha, Bool.and_eq_true, decide_eq_true_eq] using hu
    have hv : (c.toNat + 32).isValidChar := Or.inl (by omega)
    have ht : (Char.ofNat (c.toNat + 32)).toNat = c.toNat + 32 := charOfNat_toNat hv
    unfold pyLower
    rw [if_pos hu]
    unfold isPySpace
    rw [ht]
    trans false
    · simp only [Bool.or_eq_false_iff, decide_eq_false_iff_not]
      omega
    · symm
      simp only [Bool.or_eq_false_iff, decide_eq_false_iff_not]
      omega
  · unfold pyLower
    rw [if_neg hu]

theorem lower_trim_comm (l : Str) : lowerStr (trimStr l) = trimStr (lowerStr l) := by
  have hcomp : (isPySpace ∘ pyLower) = isPySpace := funext (fun c => pyLower_space c)
  unfold lowerStr trimStr
  rw [List.dropWhile_map, hcomp, ← List.map_reverse, List.dropWhile_map, hcomp,
    ← List.map_reverse]

theorem dedupAux_spec : ∀ (items seen : List Str),
    (∀ x ∈ dedupAux seen items, lowerStr x ∉ seen) ∧ ciNodup (dedupAux seen items)
  | [], seen =>
    ⟨fun x hx => absurd hx (List.not_mem_nil x), List.Pairwise.nil⟩
  | item :: rest, seen => by
    by_cases hk : (trimStr (lowerStr item)).isEmpty = true
    · have he : dedupAux seen (item :: rest) = dedupAux seen rest := by
        conv_lhs => unfold dedupAux
        rw [if_pos hk]
      rw [he]
      exact dedupAux_spec rest seen
    · by_cases hm : trimStr (lowerStr item) ∈ seen
      · have he : dedupAux seen (item :: rest) = dedupAux seen rest := by
          conv_lhs => unfold dedupAux
          rw [if_neg hk, if_pos (by simpa using hm)]
        rw [he]
        exact dedupAux_spec rest seen
      · have he : dedupAux seen (item :: rest) =
            trimStr item :: dedupAux (trimStr (lowerStr item) :: seen) rest := by
          conv_lhs => unfold dedupAux
          rw [if_neg hk, if_neg (by simpa using hm)]
        obtain ⟨ih1, ih2⟩ := dedupAux_spec rest (trimStr (lowerStr item) :: seen)
        rw [he]
        constructor
        · intro x hx
          rcases List.mem_cons.mp hx with hx' | hx'
          · subst hx'
            rw [lower_trim_comm]
            exact hm
          · intro hmem
            exact ih1 x hx' (List.mem_cons_of_mem _ hmem)
        · refine List.pairwise_cons.mpr ⟨?_, ih2⟩
          intro y hy
          have := ih1 y hy
          rw [lower_trim_comm]
          intro heq
          exact this (heq ▸ List.mem_cons_self _ _)

theorem dedup_ordered_ciNodup (items : List Str) : ciNodup (dedup_ordered items) :=
  (dedupAux_spec items []).2

instance (l : List Str) : Decidable (ciNodup l) :=
  decidable_of_iff (List.Pairwise (fun a b => lowerStr a ≠ lowerStr b) l) Iff.rfl

theorem lookupN_val_mem {m : List (Str × NRec)} {k : Str} {e : NRec}
    (h : lookupN m k = some e) : ∃ p ∈ m, p.2 = e := by
  unfold lookupN at h
  cases hf : m.find? (fun p => decide (p.1 = k)) with
  | none => rw [hf] at h; cases h
  | some p =>
    rw [hf] at h
    simp only [Option.map_some', Option.some.injEq] at h
    exact ⟨p, List.mem_of_find?_eq_some hf, h⟩

theorem ciNodup_addForm {sfs : List Str} {f : Str} (h : ciNodup sfs) :
    ciNodup (addForm sfs f) := by
  unfold addForm
  by_cases hm : lowerMem sfs f = true
  · rw [if_pos hm]
    exact h
  · rw [if_neg hm]
    rw [ciNodup, List.pairwise_append]
    refine ⟨h, List.pairwise_singleton _ _, ?_⟩
    intro a ha b hb
    rw [List.mem_singleton] at hb
    subst hb
    intro heq
    apply hm
    unfold lowerMem
    rw [List.any_eq_true]
    exact ⟨a, ha, by simpa using heq⟩

theorem ciNodup_addForms : ∀ (forms sfs : List Str), ciNodup sfs → ciNodup (addForms sfs forms)
  | [], _, h => h
  | g :: rest, sfs, h => by
    unfold addForms
    rw [List.foldl_cons]
    exact ciNodup_addForms rest (addForm sfs g) (ciNodup_addForm h)

theorem patchForms_ciNodup {O : List Entry} {s : Str} {fs : List Str}
    (hO : ∀ e ∈ O, ciNodup e.surfaceForms) :
    ∀ e' ∈ patchForms O s fs, ciNodup e'.surfaceForms := by
  intro e' he'
  unfold patchForms at he'
  rcases List.mem_map.mp he' with ⟨e0, he0, rfl⟩
  by_cases h : e0.slug = s
  · rw [if_pos h]
    exact ciNodup_addForms fs e0.surfaceForms (hO e0 he0)
  · rw [if_neg h]
    exact hO e0 he0

theorem step1_ciNodup : ∀ (ps : List (Str × List Str)) (O : List Entry),
    (∀ e ∈ O, ciNodup e.surfaceForms) → ∀ e ∈ step1 O ps, ciNodup e.surfaceForms
  | [], O, hO => by
    rw [step1_eq_foldl]
    exact hO
  | p :: rest, O, hO => by
    rw [step1_eq_foldl, List.foldl_cons]
    have hnext : ∀ e ∈ step1Pair O p, ciNodup e.surfaceForms := by
      unfold step1Pair
      by_cases h : hasSlug O p.1 = true
      · rw [if_pos h]
        exact patchForms_ciNodup hO
      · rw [if_neg h]
        exact hO
    have := step1_ciNodup rest (step1Pair O p) hnext
    rwa [step1_eq_foldl] at this

theorem step2_ciNodup : ∀ (cs : List NewEntry) (O : List Entry),
    (∀ e ∈ O, ciNodup e.surfaceForms) → (∀ c ∈ cs, ciNodup c.surfaceForms) →
    ∀ e ∈ step2 O cs, ciNodup e.surfaceForms
  | [], O, hO, _ => hO
  | c :: rest, O, hO, hC => by
    unfold step2
    rw [List.foldl_cons]
    have hnext : ∀ e ∈ step2Cand O c, ciNodup e.surfaceForms := by
      by_cases h : hasSlug O c.slug = true
      · rw [step2Cand_of_present h]
        exact patchForms_ciNodup hO
      · rw [step2Cand_of_absent (by simpa using h)]
        intro e he
        rcases List.mem_append.mp he with he' | he'
        · exact hO e he'
        · rw [List.mem_singleton] at he'
          subst he'
          exact hC c (List.mem_cons_self c rest)
    exact step2_ciNodup rest (step2Cand O c) hnext
      (fun d hd => hC d (List.mem_cons_of_mem c hd))

/-- C8: surface-form uniqueness — every entry produced by the merge has
case-insensitively distinct surfaceForms (provided the two normalized inputs
do, which `load_s1`/`load_s2` guarantee through `dedup_ordered`), and patch
application preserves the invariant for every entry, including entries
inserted by the new-entry step, provided each candidate's own surfaceForms are
case-insensitively distinct (the patch scripts' static candidates are). -/
theorem surface_form_uniqueness (s1 s2 : List (Str × NRec)) (O : List Entry) (P : PatchSpec)
    (h1 : ∀ p ∈ s1, ciNodup p.2.surfaceForms) (h2 : ∀ p ∈ s2, ciNodup p.2.surfaceForms)
    (hO : ∀ e ∈ O, ciNodup e.surfaceForms) (hC : ∀ c ∈ P.newEntries, ciNodup c.surfaceForms) :
    (∀ m ∈ merge_entries s1 s2, ciNodup m.surfaceForms) ∧
    (∀ e ∈ applyPatch O P, ciNodup e.surfaceForms) := by
  constructor
  · intro m hm
    unfold merge_entries at hm
    rcases List.mem_map.mp hm with ⟨slug, _, rfl⟩
    unfold mergeOne
    cases hl1 : lookupN s1 slug with
    | none =>
      cases hl2 : lookupN s2 slug with
      | none => exact List.Pairwise.nil
      | some e2 =>
        obtain ⟨p, hp, hpe⟩ := lookupN_val_mem hl2
        exact hpe ▸ h2 p hp
    | some e1 =>
      cases hl2 : lookupN s2 slug with
      | none =>
        obtain ⟨p, hp, hpe⟩ := lookupN_val_mem hl1
        exact hpe ▸ h1 p hp
      | some e2 => exact dedup_ordered_ciNodup _
  · intro e he
    unfold applyPatch at he
    rw [mem_sortEntries] at he
    exact step2_ciNodup P.newEntries (step1 O P.surfacePatches)
      (step1_ciNodup P.surfacePatches O hO) hC e he

/-- Witness for C8 on concrete normalized maps and a concrete patch. -/
theorem surface_form_uniqueness_witness :
    (∀ m ∈ merge_entries [(s2l "tomato", c2e1)] [(s2l "tomato", c2e2)],
      ciNodup m.surfaceForms) ∧
    (∀ e ∈ applyPatch [saltEntry] saltPatch, ciNodup e.surfaceForms) :=
  surface_form_uniqueness [(s2l "tomato", c2e1)] [(s2l "tomato", c2e2)] [saltEntry] saltPatch
    (by decide) (by decide) (by decide) (by decide)

-- ── Patch idempotency (C1) ──

theorem foldl_id {α β : Type} {g : β → α → β} {X : β} :
    ∀ {ps : List α}, (∀ p ∈ ps, g X p = X) → ps.foldl g X = X
  | [], _ => rfl
  | p :: rest, h => by
    rw [List.foldl_cons, h p (List.mem_cons_self p rest)]
    exact foldl_id (fun q hq => h q (List.mem_cons_of_mem p hq))

theorem patchForms_id {X : List Entry} {s : Str} {fs : List Str}
    (hnd : (X.map Entry.slug).Nodup)
    (hinv : ∃ e ∈ X, e.slug = s ∧ ∀ f ∈ fs, lowerMem e.surfaceForms f = true) :
    patchForms X s fs = X := by
  obtain ⟨e, heX, hslug, hforms⟩ := hinv
  unfold patchForms
  apply map_id_of_fix
  intro y hy
  by_cases h : y.slug = s
  · have hye : y = e := mem_slug_unique hnd hy heX (h.trans hslug.symm)
    subst hye
    rw [if_pos h, addForms_eq_self fs y.surfaceForms hforms]
  · rw [if_neg h]

theorem step1Pair_id {X : List Entry} {p : Str × List Str}
    (hnd : (X.map Entry.slug).Nodup)
    (hinv : ∃ e ∈ X, e.slug = p.1 ∧ ∀ f ∈ p.2, lowerMem e.surfaceForms f = true) :
    step1Pair X p = X := by
  have hhas : hasSlug X p.1 = true := by
    obtain ⟨e, heX, hslug, _⟩ := hinv
    exact hasSlug_iff.mpr (hslug ▸ List.mem_map.mpr ⟨e, heX, rfl⟩)
  rw [step1Pair_of_present hhas]
  exact patchForms_id hnd hinv

theorem step2Cand_id {X : List Entry} {c : NewEntry}
    (hnd : (X.map Entry.slug).Nodup)
    (hinv : ∃ e ∈ X, e.slug = c.slug ∧ ∀ f ∈ c.surfaceForms, lowerMem e.surfaceForms f = true) :
    step2Cand X c = X := by
  have hhas : hasSlug X c.slug = true := by
    obtain ⟨e, heX, hslug, _⟩ := hinv
    exact hasSlug_iff.mpr (hslug ▸ List.mem_map.mpr ⟨e, heX, rfl⟩)
  rw [step2Cand_of_present hhas]
  exact patchForms_id hnd hinv

theorem step1_inv : ∀ (ps : List (Str × List Str)) (O : List Entry),
    (∀ p ∈ ps, hasSlug O p.1 = true) → ∀ p ∈ ps,
      ∃ e ∈ step1 O ps, e.slug = p.1 ∧ ∀ f ∈ p.2, lowerMem e.surfaceForms f = true
  | [], _, _, p, hp => absurd hp (List.not_mem_nil p)
  | q :: rest, O, hps, p, hp => by
    have hstep : step1 O (q :: rest) = step1 (step1Pair O q) rest := by
      rw [step1_eq_foldl, List.foldl_cons, step1_eq_foldl]
    have hslugsX : (step1Pair O q).map Entry.slug = O.map Entry.slug :=
      forall2_frame_slugs (step1Pair_frame O q)
    rcases List.mem_cons.mp hp with hp' | hp'
    · subst hp'
      have hq : hasSlug O p.1 = true := hps p (List.mem_cons_self p rest)
      obtain ⟨e0, he0, hslug0⟩ : ∃ e0 ∈ O, e0.slug = p.1 := by
        rcases List.mem_map.mp (hasSlug_iff.mp hq) with ⟨e0, he0, hs⟩
        exact ⟨e0, he0, hs⟩
      have hX : step1Pair O p = patchForms O p.1 p.2 := step1Pair_of_present hq
      have hmem1 : { e0 with surfaceForms := addForms e0.surfaceForms p.2 } ∈ step1Pair O p := by
        rw [hX]
        unfold patchForms
        refine List.mem_map.mpr ⟨e0, he0, ?_⟩
        simp [hslug0]
      obtain ⟨e', he', hfe⟩ :=
        forall2_frame_mem (step1_frame rest (step1Pair O p)) hmem1
      refine ⟨e', hstep ▸ he', (frame_slug hfe).trans hslug0, ?_⟩
      intro f hf
      obtain ⟨t, ht⟩ := frame_sf hfe
      rw [ht]
      exact lowerMem_append (addForms_mem p.2 e0.surfaceForms f hf)
    · have hps' : ∀ r ∈ rest, hasSlug (step1Pair O q) r.1 = true := by
        intro r hr
        rw [hasSlug_congr hslugsX]
        exact hps r (List.mem_cons_of_mem q hr)
      obtain ⟨e, he, h1, h2⟩ := step1_inv rest (step1Pair O q) hps' p hp'
      exact ⟨e, hstep ▸ he, h1, h2⟩

theorem step2_inv : ∀ (cs : List NewEntry) (O : List Entry), ∀ c ∈ cs,
    ∃ e ∈ step2 O cs, e.slug = c.slug ∧ ∀ f ∈ c.surfaceForms, lowerMem e.surfaceForms f = true
  | [], _, c, hc => absurd hc (List.not_mem_nil c)
  | q :: rest, O, c, hc => by
    have hstep : step2 O (q :: rest) = step2 (step2Cand O q) rest := by
      unfold step2
      rw [List.foldl_cons]
    rcases List.mem_cons.mp hc with hc' | hc'
    · subst hc'
      by_cases hq : hasSlug O c.slug = true
      · obtain ⟨e0, he0, hslug0⟩ : ∃ e0 ∈ O, e0.slug = c.slug := by
          rcases List.mem_map.mp (hasSlug_iff.mp hq) with ⟨e0, he0, hs⟩
          exact ⟨e0, he0, hs⟩
        have hmem1 : { e0 with surfaceForms := addForms e0.surfaceForms c.surfaceForms } ∈
            step2Cand O c := by
          rw [step2Cand_of_present hq]
          unfold patchForms
          refine List.mem_map.mpr ⟨e0, he0, ?_⟩
          simp [hslug0]
        obtain ⟨e', he', hfe⟩ := frame_mem_step2 rest (step2Cand O c) hmem1
        refine ⟨e', hstep ▸ he', (frame_slug hfe).trans hslug0, ?_⟩
        intro f hf
        obtain ⟨t, ht⟩ := frame_sf hfe
        rw [ht]
        exact lowerMem_append (addForms_mem c.surfaceForms e0.surfaceForms f hf)
      · have hmem1 : enrich_new_entry c ∈ step2Cand O c := by
          rw [step2Cand_of_absent (by simpa using hq)]
          exact List.mem_append_right O (List.mem_singleton_self _)
        obtain ⟨e', he', hfe⟩ := frame_mem_step2 rest (step2Cand O c) hmem1
        refine ⟨e', hstep ▸ he', (frame_slug hfe).trans (enrich_new_entry_slug c), ?_⟩
        intro f hf
        obtain ⟨t, ht⟩ := frame_sf hfe
        rw [ht]
        exact lowerMem_append (lowerMem_of_mem hf)
    · obtain ⟨e, he, h1, h2⟩ := step2_inv rest (step2Cand O q) c hc'
      exact ⟨e, hstep ▸ he, h1, h2⟩

/-- C1 counterexample: with an empty base, a patch whose surface-form pair
targets the slug of one of its own new-entry candidates is not idempotent —
the pair is skipped on the first run (slug absent) but fires on the second
(the candidate created the slug), appending `flour power`. -/
theorem applyPatch_not_idem :
    applyPatch (applyPatch [] c1patch) c1patch ≠ applyPatch [] c1patch ∧
    (applyPatch (applyPatch [] c1patch) c1patch).map Entry.surfaceForms =
      [[s2l "flour", s2l "flour power"]] ∧
    (applyPatch [] c1patch).map Entry.surfaceForms = [[s2l "flour"]] := by decide

/-- C1 (amended): patch application is idempotent on every knowledge base with
unique slugs provided each slug named in the surface-form patch mapping
already exists in the base; a second application of the identical patch then
adds no surface form and no entry. (Without that proviso a pair naming a slug
introduced only by a new-entry candidate is skipped on the first run but
applied on the second.) -/
theorem applyPatch_idem (O : List Entry) (P : PatchSpec)
    (hnd : (O.map Entry.slug).Nodup)
    (hps : ∀ p ∈ P.surfacePatches, hasSlug O p.1 = true) :
    applyPatch (applyPatch O P) P = applyPatch O P := by
  have hndA : ((applyPatch O P).map Entry.slug).Nodup := by
    unfold applyPatch
    have h1 : ((step1 O P.surfacePatches).map Entry.slug).Nodup := by
      rw [forall2_frame_slugs (step1_frame P.surfacePatches O)]
      exact hnd
    have h2 := step2_slug_nodup P.newEntries _ h1
    exact (((sortEntries_perm _).map Entry.slug).nodup_iff).mpr h2
  have hmemA : ∀ {e : Entry}, e ∈ step2 (step1 O P.surfacePatches) P.newEntries →
      e ∈ applyPatch O P := by
    intro e he
    unfold applyPatch
    rw [mem_sortEntries]
    exact he
  have hInv1 : ∀ p ∈ P.surfacePatches, ∃ e ∈ applyPatch O P,
      e.slug = p.1 ∧ ∀ f ∈ p.2, lowerMem e.surfaceForms f = true := by
    intro p hp
    obtain ⟨e, he, h1, h2⟩ := step1_inv P.surfacePatches O hps p hp
    obtain ⟨e', he', hfe⟩ := frame_mem_step2 P.newEntries _ he
    refine ⟨e', hmemA he', (frame_slug hfe).trans h1, ?_⟩
    intro f hf
    obtain ⟨t, ht⟩ := frame_sf hfe
    rw [ht]
    exact lowerMem_append (h2 f hf)
  have hInv2 : ∀ c ∈ P.newEntries, ∃ e ∈ applyPatch O P,
      e.slug = c.slug ∧ ∀ f ∈ c.surfaceForms, lowerMem e.surfaceForms f = true := by
    intro c hc
    obtain ⟨e, he, h1, h2⟩ := step2_inv P.newEntries (step1 O P.surfacePatches) c hc
    exact ⟨e, hmemA he, h1, h2⟩
  have hstep1 : step1 (applyPatch O P) P.surfacePatches = applyPatch O P := by
    rw [step1_eq_foldl]
    exact foldl_id (fun p hp => step1Pair_id hndA (hInv1 p hp))
  have hstep2 : step2 (applyPatch O P) P.newEntries = applyPatch O P := by
    unfold step2
    exact foldl_id (fun c hc => step2Cand_id hndA (hInv2 c hc))
  have hsort : sortEntries (applyPatch O P) = applyPatch O P := by
    unfold applyPatch
    exact sortEntries_idem _
  show sortEntries (step2 (step1 (applyPatch O P) P.surfacePatches) P.newEntries) =
    applyPatch O P
  rw [hstep1, hstep2, hsort]

/-- Witness for the amended C1 theorem on a concrete base and patch whose
surface-form pairs all target existing slugs. -/
theorem applyPatch_idem_witness :
    applyPatch (applyPatch [saltEntry] saltPatch) saltPatch =
      applyPatch [saltEntry] saltPatch :=
  applyPatch_idem [saltEntry] saltPatch (by decide) (by decide)

-- ── Support: the loaders justify the normalized-map hypotheses ──

theorem normalize_fdc_id_pos : ∀ (v : FdcVal) (n : Int), normalize_fdc_id v = some n → 0 < n := by
  intro v n h
  cases v with
  | none => cases h
  | int m =>
    simp only [normalize_fdc_id] at h
    by_cases hm : 0 < m
    · rw [if_pos hm] at h
      cases h
      exact hm
    · rw [if_neg hm] at h
      cases h
  | str s =>
    simp only [normalize_fdc_id] at h
    cases hp : pyParseInt s with
    | none => rw [hp] at h; cases h
    | some m =>
      rw [hp] at h
      simp only [] at h
      by_cases hm : 0 < m
      · rw [if_pos hm] at h
        cases h
        exact hm
      · rw [if_neg hm] at h
        cases h

theorem dictInsert_values {P : NRec → Prop} {m : List (Str × NRec)} {k : Str} {v : NRec}
    (hm : ∀ p ∈ m, P p.2) (hv : P v) : ∀ p ∈ dictInsert m k v, P p.2 := by
  intro p hp
  unfold dictInsert at hp
  by_cases hc : m.any (fun p => decide (p.1 = k)) = true
  · rw [if_pos hc] at hp
    rcases List.mem_map.mp hp with ⟨q, hq, rfl⟩
    by_cases hqk : q.1 = k
    · rw [if_pos hqk]
      exact hv
    · rw [if_neg hqk]
      exact hm q hq
  · rw [if_neg hc] at hp
    rcases List.mem_append.mp hp with hp' | hp'
    · exact hm p hp'
    · rw [List.mem_singleton] at hp'
      subst hp'
      exact hv

theorem foldl_dictInsert_values {α : Type} {P : NRec → Prop} {f : α → NRec} {g : α → Str}
    (hP : ∀ item, P (f item)) :
    ∀ (raw : List α) (m : List (Str × NRec)), (∀ p ∈ m, P p.2) →
      ∀ p ∈ raw.foldl (fun m item => dictInsert m (g item) (f item)) m, P p.2
  | [], _, hm, p, hp => hm p hp
  | item :: rest, m, hm, p, hp => by
    rw [List.foldl_cons] at hp
    exact foldl_dictInsert_values hP rest (dictInsert m (g item) (f item))
      (dictInsert_values hm (hP item)) p hp

/-- Both loader outputs never carry a zero external id: the hypothesis of the
merge theorem holds of every normalized map the build script constructs. -/
theorem load_fdc_nonzero (raw1 : List S1Rec) (raw2 : List S2Rec) :
    (∀ p ∈ load_s1 raw1, p.2.fdcId ≠ some 0) ∧ (∀ p ∈ load_s2 raw2, p.2.fdcId ≠ some 0) := by
  constructor
  · refine foldl_dictInsert_values (P := fun r => r.fdcId ≠ some 0)
      (f := normS1) (g := fun item => (normS1 item).slug) ?_ raw1 []
      (fun p hp => absurd hp (List.not_mem_nil p))
    intro item heq
    have := normalize_fdc_id_pos item.fdc_id 0 heq
    omega
  · refine foldl_dictInsert_values (P := fun r => r.fdcId ≠ some 0)
      (f := normS2) (g := S2Rec.slug) ?_ raw2 []
      (fun p hp => absurd hp (List.not_mem_nil p))
    intro item heq
    have := normalize_fdc_id_pos item.fdc_id 0 heq
    omega

/-- Both loader outputs have case-insensitively unique surface forms (they are
built by `dedup_ordered`): the hypotheses of the uniqueness theorem hold of
every normalized map the build script constructs. -/
theorem load_ciNodup (raw1 : List S1Rec) (raw2 : List S2Rec) :
    (∀ p ∈ load_s1 raw1, ciNodup p.2.surfaceForms) ∧
    (∀ p ∈ load_s2 raw2, ciNodup p.2.surfaceForms) := by
  constructor
  · refine foldl_dictInsert_values (P := fun r => ciNodup r.surfaceForms)
      (f := normS1) (g := fun item => (normS1 item).slug) ?_ raw1 []
      (fun p hp => absurd hp (List.not_mem_nil p))
    intro item
    exact dedup_ordered_ciNodup _
  · refine foldl_dictInsert_values (P := fun r => ciNodup r.surfaceForms)
      (f := normS2) (g := S2Rec.slug) ?_ raw2 []
      (fun p hp => absurd hp (List.not_mem_nil p))
    intro item
    exact dedup_ordered_ciNodup _
